import Mathlib

/-! # Verification of the marble-chain game server

Shallow embedding of the simulation core in `src/server/src/game.rs`.

Modelling conventions, used consistently below:
* `f32` is modelled by `ℚ` (exact rational arithmetic); the float literals
  of the source (`0.4`, `1.02`, `1e-6`, ...) become the corresponding
  rational literals.
* The machine square root, sine and cosine are abstract parameters,
  collected in the structure `Fext`; no theorem below depends on their
  values beyond what the source code itself guarantees.
* `HashMap` is modelled by an association list, `SocketAddr` by `Nat`.
* The thread-local random generator is modelled by an explicit stream of
  draws (`Rng`): a list of `f32` samples in the unit interval and a list
  of `u128` samples, consumed in the exact order the source draws them.
* `while` loops become fuel-indexed structural recursions; each call site
  supplies fuel dominating the loop's iteration count, so the embedding
  agrees with the Rust control flow on every state the theorems mention.
* Logging (`info!` calls) and values computed only for logging are
  omitted; `Vec::sort_by` (a stable sort) is modelled by the stable
  insertion sort `List.insertionSort`.
-/

/-- `ChainMarble` of game.rs: a marble bound to the path.  `color = none`
denotes a gap. -/
structure ChainMarble where
  id : Option Nat
  s : ℚ
  color : Option String
deriving DecidableEq, Repr

instance : Inhabited ChainMarble := ⟨⟨none, 0, none⟩⟩

/-- `Marble` of game.rs: a free-flying projectile. -/
structure Marble where
  id : Nat
  x : ℚ
  y : ℚ
  z : ℚ
  vx : ℚ
  vy : ℚ
  vz : ℚ
  life : ℚ
  color : String
  owner : Option Nat
deriving DecidableEq, Repr

instance : Inhabited Marble := ⟨⟨0, 0, 0, 0, 0, 0, 0, 0, "", none⟩⟩

/-- `Player` of game.rs. -/
structure Player where
  id : Nat
  x : ℚ
  y : ℚ
  z : ℚ
  yaw : ℚ
  loaded_color : String
  next_color : String
deriving DecidableEq, Repr

/-- `PersistentPlayer` of game.rs (identity that survives reconnects). -/
structure PersistentPlayer where
  id : Nat
  x : ℚ
  y : ℚ
  z : ℚ
  yaw : ℚ
  loaded_color : String
  next_color : String
  connected : Bool
  addr : Option Nat
deriving DecidableEq, Repr

/-- `GameState` of game.rs (the `path_points` debug field and
`current_score` are carried but untouched by the embedded operations). -/
structure GameState where
  players : List (Nat × Player)
  marbles : List Marble
  chain : List ChainMarble
  current_score : Nat
  samples : List (ℚ × ℚ)
  cum_lengths : List ℚ
  total_length : ℚ
  spawn_accum : ℚ
  spawn_interval : ℚ
  marble_diameter : ℚ
  spacing_length : ℚ
  chain_speed : ℚ
  next_player_id : Nat
  next_marble_id : Nat
  token_map : List (String × PersistentPlayer)
deriving DecidableEq, Repr

/-- Abstract machine math functions (`f32::sqrt`, `f32::sin`, `f32::cos`). -/
structure Fext where
  sqrt : ℚ → ℚ
  sin : ℚ → ℚ
  cos : ℚ → ℚ

/-- Random generator modelled as explicit streams of draws. -/
structure Rng where
  fs : List ℚ
  ns : List Nat
deriving DecidableEq, Repr

/-- One `rng.random::<f32>()` draw (`0` once the stream is exhausted). -/
def Rng.nextF : Rng → ℚ × Rng
  | ⟨[], ns⟩ => (0, ⟨[], ns⟩)
  | ⟨r :: rs, ns⟩ => (r, ⟨rs, ns⟩)

/-- One `rng.random::<u128>()` draw (`0` once the stream is exhausted). -/
def Rng.nextN : Rng → Nat × Rng
  | ⟨fs, []⟩ => (0, ⟨fs, []⟩)
  | ⟨fs, n :: ns⟩ => (n, ⟨fs, ns⟩)

/-! ## Match resolver: `try_remove_matches` (game.rs lines 775-839) -/

/-- Number of consecutive marbles with color `color` immediately to the
left of position `idx` (the `while cur > 0` count loop of
`try_remove_matches`). -/
def leftRun (chain : List ChainMarble) (color : String) (idx : Nat) : Nat :=
  ((chain.take idx).reverse.takeWhile (fun cm => decide (cm.color = some color))).length

/-- Number of consecutive marbles with color `color` immediately to the
right of position `idx` (the `while cur + 1 < len` count loop). -/
def rightRun (chain : List ChainMarble) (color : String) (idx : Nat) : Nat :=
  ((chain.drop (idx + 1)).takeWhile (fun cm => decide (cm.color = some color))).length

/-- Turn the entry at position `i` into a gap (`color = None; id = None`),
keeping its `s`; out-of-range positions are left unchanged. -/
def clearAt (chain : List ChainMarble) (i : Nat) : List ChainMarble :=
  match chain.get? i with
  | some cm => chain.set i { cm with id := none, color := none }
  | none => chain

/-- The `for i in start..=end` gap-conversion loop of `try_remove_matches`. -/
def clearRange (chain : List ChainMarble) (a b : Nat) : List ChainMarble :=
  (List.range' a (b + 1 - a)).foldl clearAt chain

/-- `try_remove_matches` of game.rs: mark a contiguous same-colored run of
length ≥ 3 through `idx` as gaps, in place. -/
def try_remove_matches (chain : List ChainMarble) (idx : Nat) : List ChainMarble :=
  if chain.isEmpty then chain
  else if chain.length ≤ idx then chain
  else
    match (chain.getD idx default).color with
    | none => chain
    | some color =>
      let left := leftRun chain color idx
      let right := rightRun chain color idx
      if 3 ≤ 1 + left + right then
        clearRange chain (idx - left) (min (idx + right) (chain.length - 1))
      else chain

/-! ### Pointwise behaviour of the gap-conversion loop -/

theorem clearAt_get? (chain : List ChainMarble) (i j : Nat) :
    (clearAt chain i).get? j =
      if j = i then (chain.get? j).map (fun cm => { cm with id := none, color := none })
      else chain.get? j := by
  unfold clearAt
  rcases h : chain.get? i with _ | cm <;>
    rw [List.get?_eq_getElem?] at h
  · rcases eq_or_ne j i with rfl | hj
    · simp [List.get?_eq_getElem?, h]
    · simp [hj]
  · rcases eq_or_ne j i with rfl | hj
    · simp [List.get?_eq_getElem?, List.getElem?_set_self', h, Function.const]
    · simp [List.get?_eq_getElem?, List.getElem?_set_ne (Ne.symm hj), hj]

theorem clearAt_length (chain : List ChainMarble) (i : Nat) :
    (clearAt chain i).length = chain.length := by
  unfold clearAt
  rcases h : chain.get? i with _ | cm <;> simp

theorem foldl_clearAt_get? (is : List Nat) (chain : List ChainMarble) (j : Nat) :
    (is.foldl clearAt chain).get? j =
      if j ∈ is then (chain.get? j).map (fun cm => { cm with id := none, color := none })
      else chain.get? j := by
  induction is generalizing chain with
  | nil => simp
  | cons i is ih =>
    simp only [List.foldl_cons, ih, clearAt_get?]
    rcases eq_or_ne j i with rfl | hj
    · by_cases hmem : j ∈ is <;> (simp [hmem, Option.map_map]; try rfl)
    · by_cases hmem : j ∈ is <;> simp [hmem, hj, List.mem_cons]

theorem foldl_clearAt_length (is : List Nat) (chain : List ChainMarble) :
    (is.foldl clearAt chain).length = chain.length := by
  induction is generalizing chain with
  | nil => rfl
  | cons i is ih => simp [ih, clearAt_length]

theorem clearRange_get? (chain : List ChainMarble) (a b j : Nat) :
    (clearRange chain a b).get? j =
      if a ≤ j ∧ j ≤ b then (chain.get? j).map (fun cm => { cm with id := none, color := none })
      else chain.get? j := by
  unfold clearRange
  rw [foldl_clearAt_get?]
  congr 1
  simp only [List.mem_range'_1, eq_iff_iff]
  omega

theorem clearRange_length (chain : List ChainMarble) (a b : Nat) :
    (clearRange chain a b).length = chain.length :=
  foldl_clearAt_length _ _

theorem leftRun_le (chain : List ChainMarble) (color : String) (idx : Nat)
    (h : idx ≤ chain.length) : leftRun chain color idx ≤ idx := by
  have h1 := (List.takeWhile_sublist
    (l := (chain.take idx).reverse) (fun cm => decide (cm.color = some color))).length_le
  simp only [List.length_reverse, List.length_take] at h1
  unfold leftRun
  omega

theorem rightRun_le (chain : List ChainMarble) (color : String) (idx : Nat) :
    rightRun chain color idx ≤ chain.length - (idx + 1) := by
  have h1 := (List.takeWhile_sublist
    (l := chain.drop (idx + 1)) (fun cm => decide (cm.color = some color))).length_le
  simp only [List.length_drop] at h1
  unfold rightRun
  omega

/-! ## Path sampler: `chain_world_pos` (game.rs lines 188-220) -/

/-- Rust `f32::clamp`. -/
def clampQ (x lo hi : ℚ) : ℚ := max lo (min x hi)

/-- The loop of Rust's `slice::binary_search_by` applied to the
cumulative-length table.  On `ℚ` the source comparator
`v.partial_cmp(&target).unwrap_or(Equal)` is the total comparison.
`inl i` is Rust's `Ok(i)` (index with value equal to the target), `inr i`
is `Err(i)` (insertion point).  The fuel dominates the iteration count:
`right - left` strictly decreases, so `binSearch` passing `length + 1`
always runs the loop to completion. -/
def bsLoop (v : List ℚ) (t : ℚ) : Nat → Nat → Nat → Nat ⊕ Nat
  | 0, left, _ => Sum.inr left
  | fuel + 1, left, right =>
    if left < right then
      let mid := left + (right - left) / 2
      let x := v.getD mid 0
      if x < t then bsLoop v t fuel (mid + 1) right
      else if t < x then bsLoop v t fuel left mid
      else Sum.inl mid
    else Sum.inr left

/-- `binary_search_by` over the whole slice. -/
def binSearch (v : List ℚ) (t : ℚ) : Nat ⊕ Nat := bsLoop v t (v.length + 1) 0 v.length

/-- `chain_world_pos` of game.rs: map arc fraction `s` to a world `(x, z)`
point by binary search in the cumulative-length table and linear
interpolation between the bracketing samples.  `sampIdx` is the local
`idx` of the source (`Ok(i) => i, Err(i) => i`). -/
def sampIdx (gs : GameState) (target : ℚ) : Nat :=
  match binSearch gs.cum_lengths target with
  | Sum.inl i => i
  | Sum.inr i => i

/-- `chain_world_pos` continued: the branch on the found index. -/
def chain_world_pos (gs : GameState) (s : ℚ) : ℚ × ℚ :=
  if gs.samples.isEmpty then (0, 0)
  else
    let target := clampQ s 0 1 * gs.total_length
    let idx := sampIdx gs target
    if idx = 0 then gs.samples.getD 0 (0, 0)
    else if gs.samples.length ≤ idx then gs.samples.getLastD (0, 0)
    else
      let l1 := gs.cum_lengths.getD (idx - 1) 0
      let l2 := gs.cum_lengths.getD idx 0
      let denom := max (l2 - l1) (1 / 1000000)
      let t := (target - l1) / denom
      let p1 := gs.samples.getD (idx - 1) (0, 0)
      let p2 := gs.samples.getD idx (0, 0)
      (p1.1 * (1 - t) + p2.1 * t, p1.2 * (1 - t) + p2.2 * t)

/-! ### Binary search correctness -/

theorem pairwise_getD_mono (v : List ℚ) (hv : v.Pairwise (· ≤ ·)) {i j : Nat}
    (hij : i ≤ j) (hj : j < v.length) : v.getD i 0 ≤ v.getD j 0 := by
  rcases eq_or_lt_of_le hij with rfl | hlt
  · exact le_refl _
  · rw [List.getD_eq_getElem _ _ (lt_trans hlt hj), List.getD_eq_getElem _ _ hj]
    exact List.pairwise_iff_getElem.mp hv i j _ _ hlt

theorem bsLoop_spec (v : List ℚ) (t : ℚ) (hv : v.Pairwise (· ≤ ·)) :
    ∀ fuel left right, right ≤ v.length → left ≤ right → right - left ≤ fuel →
    (∀ j, j < left → v.getD j 0 < t) →
    (∀ j, right ≤ j → j < v.length → t < v.getD j 0) →
    (match bsLoop v t fuel left right with
     | Sum.inl i => i < v.length ∧ v.getD i 0 = t
     | Sum.inr i => i ≤ v.length ∧ (∀ j, j < i → v.getD j 0 < t) ∧
         (∀ j, i ≤ j → j < v.length → t < v.getD j 0)) := by
  intro fuel
  induction fuel with
  | zero =>
    intro left right hrlen hlr hfuel hleft hright
    have : left = right := by omega
    subst this
    simp only [bsLoop]
    exact ⟨by omega, hleft, hright⟩
  | succ fuel ih =>
    intro left right hrlen hlr hfuel hleft hright
    simp only [bsLoop]
    by_cases hcond : left < right
    · simp only [if_pos hcond]
      have hmidlt : left + (right - left) / 2 < right := by omega
      have hmidge : left ≤ left + (right - left) / 2 := by omega
      by_cases hx : v.getD (left + (right - left) / 2) 0 < t
      · simp only [if_pos hx]
        refine ih (left + (right - left) / 2 + 1) right hrlen (by omega) (by omega) ?_ hright
        intro j hj
        exact lt_of_le_of_lt
          (pairwise_getD_mono v hv (by omega) (by omega)) hx
      · simp only [if_neg hx]
        by_cases ht : t < v.getD (left + (right - left) / 2) 0
        · simp only [if_pos ht]
          refine ih left (left + (right - left) / 2) (by omega) (by omega) (by omega) hleft ?_
          intro j hj hjlen
          exact lt_of_lt_of_le ht (pairwise_getD_mono v hv hj hjlen)
        · simp only [if_neg ht]
          exact ⟨by omega, le_antisymm (not_lt.mp ht) (not_lt.mp hx)⟩
    · simp only [if_neg hcond]
      have : left = right := by omega
      subst this
      exact ⟨by omega, hleft, hright⟩

theorem binSearch_spec (v : List ℚ) (t : ℚ) (hv : v.Pairwise (· ≤ ·)) :
    (match binSearch v t with
     | Sum.inl i => i < v.length ∧ v.getD i 0 = t
     | Sum.inr i => i ≤ v.length ∧ (∀ j, j < i → v.getD j 0 < t) ∧
         (∀ j, i ≤ j → j < v.length → t < v.getD j 0)) :=
  bsLoop_spec v t hv (v.length + 1) 0 v.length (le_refl _) (Nat.zero_le _) (by omega)
    (by omega) (by omega)

/-! ### Well-formed paths

`read_path` (game.rs lines 146-185) builds `cum_lengths` as the running
sums of the consecutive sample distances `d = sqrt(dx*dx + dz*dz)` and
sets `total_length` to the last entry when positive, else `1.0`.  The
machine square root is abstract here; all the sampler correctness uses
about a distance is that it is nonnegative and vanishes exactly when the
two samples coincide, which `PathWF` states directly about the increment
list. -/
def PathWF (gs : GameState) : Prop :=
  ∃ ds : List ℚ,
    gs.cum_lengths = List.scanl (· + ·) 0 ds ∧
    gs.samples.length = ds.length + 1 ∧
    (∀ i, i < ds.length → 0 ≤ ds.getD i 0 ∧
      (ds.getD i 0 = 0 ↔ gs.samples.getD i (0, 0) = gs.samples.getD (i + 1) (0, 0))) ∧
    gs.total_length =
      (if 0 < gs.cum_lengths.getLastD 0 then gs.cum_lengths.getLastD 0 else 1)

theorem scanl_add_getD_zero (ds : List ℚ) (a : ℚ) :
    (List.scanl (· + ·) a ds).getD 0 0 = a := by
  cases ds <;> rfl

theorem scanl_add_step (ds : List ℚ) (a : ℚ) :
    ∀ i, i < ds.length →
      (List.scanl (· + ·) a ds).getD (i + 1) 0 =
        (List.scanl (· + ·) a ds).getD i 0 + ds.getD i 0 := by
  induction ds generalizing a with
  | nil => intro i hi; simp at hi
  | cons d ds ih =>
    intro i hi
    cases i with
    | zero =>
      simp only [List.scanl]
      rw [show ((a :: List.scanl (· + ·) (a + d) ds).getD 1 0) =
        (List.scanl (· + ·) (a + d) ds).getD 0 0 from rfl]
      rw [scanl_add_getD_zero]
      rfl
    | succ i =>
      simp only [List.scanl]
      have hi' : i < ds.length := by simpa using hi
      have h2 := ih (a + d) i hi'
      exact h2

theorem scanl_add_mono (ds : List ℚ) (hds : ∀ i, i < ds.length → 0 ≤ ds.getD i 0) :
    ∀ i j, i ≤ j → j < ds.length + 1 →
      (List.scanl (· + ·) 0 ds).getD i 0 ≤ (List.scanl (· + ·) 0 ds).getD j 0 := by
  intro i j hij hj
  induction j with
  | zero =>
    have : i = 0 := by omega
    subst this; exact le_refl _
  | succ j ihj =>
    rcases Nat.lt_or_ge i (j + 1) with hlt | hge
    · have h1 : (List.scanl (· + ·) 0 ds).getD i 0 ≤ (List.scanl (· + ·) 0 ds).getD j 0 :=
        ihj (by omega) (by omega)
      have h2 := scanl_add_step ds 0 j (by omega)
      have h3 := hds j (by omega)
      linarith
    · have : i = j + 1 := by omega
      subst this; exact le_refl _

theorem scanl_add_pairwise (ds : List ℚ) (hds : ∀ i, i < ds.length → 0 ≤ ds.getD i 0) :
    (List.scanl (· + ·) 0 ds).Pairwise (· ≤ ·) := by
  rw [List.pairwise_iff_getElem]
  intro i j hi hj hij
  have hlen : (List.scanl (· + ·) 0 ds).length = ds.length + 1 := List.length_scanl 0 ds
  have := scanl_add_mono ds hds i j (le_of_lt hij) (by omega)
  rwa [List.getD_eq_getElem _ _ hi, List.getD_eq_getElem _ _ hj] at this

/-- If two cumulative lengths agree then all the increments between them
vanish, hence (through `PathWF`) the samples in between coincide. -/
theorem samples_eq_of_cum_eq (gs : GameState) (hwf : PathWF gs) :
    ∀ i j, i ≤ j → j < gs.cum_lengths.length →
      gs.cum_lengths.getD i 0 = gs.cum_lengths.getD j 0 →
      gs.samples.getD i (0, 0) = gs.samples.getD j (0, 0) := by
  obtain ⟨ds, hcum, hslen, hdprop, _⟩ := hwf
  have hclen : gs.cum_lengths.length = ds.length + 1 := by
    rw [hcum]; exact List.length_scanl 0 ds
  intro i j hij hj
  induction j with
  | zero =>
    intro _
    have : i = 0 := by omega
    subst this; rfl
  | succ j ihj =>
    intro heq
    rcases Nat.lt_or_ge i (j + 1) with hlt | hge
    · have hjd : j < ds.length := by omega
      have hmono1 := scanl_add_mono ds (fun k hk => (hdprop k hk).1) i j (by omega) (by omega)
      have hstep := scanl_add_step ds 0 j hjd
      have hd0 := (hdprop j hjd).1
      rw [hcum] at heq
      have hdj : ds.getD j 0 = 0 := by linarith
      have hcumij : gs.cum_lengths.getD i 0 = gs.cum_lengths.getD j 0 := by
        rw [hcum]; linarith
      have h1 := ihj (by omega) (by omega) hcumij
      have h2 := (hdprop j hjd).2.mp hdj
      rw [h1, h2]
    · have : i = j + 1 := by omega
      subst this; rfl

theorem getLastD_eq_getD {α : Type _} (l : List α) (d : α) :
    l.getLastD d = l.getD (l.length - 1) d := by
  rw [List.getLastD_eq_getLast?, List.getLast?_eq_getElem?, List.getD_eq_getElem?_getD]

/-- Minimum-separation condition: consecutive cumulative lengths either
coincide or differ by at least the `1e-6` interpolation-denominator clamp
of `chain_world_pos`. -/
def MinSep (gs : GameState) : Prop :=
  ∀ i, i + 1 < gs.cum_lengths.length →
    gs.cum_lengths.getD (i + 1) 0 - gs.cum_lengths.getD i 0 = 0 ∨
    1 / 1000000 ≤ gs.cum_lengths.getD (i + 1) 0 - gs.cum_lengths.getD i 0

/-- The spec-side description of the interpolation contract: the returned
point is the linear interpolation between two samples whose cumulative
lengths bracket the target arc length (degenerate zero-width brackets
return the shared sample). -/
def IsBracketLerp (gs : GameState) (s : ℚ) (w : ℚ × ℚ) : Prop :=
  ∃ i, 0 < i ∧ i < gs.samples.length ∧
    gs.cum_lengths.getD (i - 1) 0 ≤ clampQ s 0 1 * gs.total_length ∧
    clampQ s 0 1 * gs.total_length ≤ gs.cum_lengths.getD i 0 ∧
    ((gs.cum_lengths.getD (i - 1) 0 = gs.cum_lengths.getD i 0 ∧
        w = gs.samples.getD (i - 1) (0, 0)) ∨
     (gs.cum_lengths.getD (i - 1) 0 < gs.cum_lengths.getD i 0 ∧
      w = (fun t => (((gs.samples.getD (i - 1) (0, 0)).1 * (1 - t) +
                      (gs.samples.getD i (0, 0)).1 * t),
                    ((gs.samples.getD (i - 1) (0, 0)).2 * (1 - t) +
                      (gs.samples.getD i (0, 0)).2 * t)))
            ((clampQ s 0 1 * gs.total_length - gs.cum_lengths.getD (i - 1) 0) /
             (gs.cum_lengths.getD i 0 - gs.cum_lengths.getD (i - 1) 0))))

theorem sampler_le_zero (gs : GameState) (hwf : PathWF gs) :
    ∀ s : ℚ, s ≤ 0 → chain_world_pos gs s = gs.samples.getD 0 (0, 0) := by
  obtain ⟨ds, hcum, hslen, hdprop, htot⟩ := hwf
  have hclen : gs.cum_lengths.length = ds.length + 1 := by
    rw [hcum]; exact List.length_scanl 0 ds
  have hpw : gs.cum_lengths.Pairwise (· ≤ ·) := by
    rw [hcum]; exact scanl_add_pairwise ds (fun k hk => (hdprop k hk).1)
  have hc0 : gs.cum_lengths.getD 0 0 = 0 := by
    rw [hcum]; exact scanl_add_getD_zero ds 0
  have hne : gs.samples.isEmpty = false := by
    cases hsamp : gs.samples with
    | nil => rw [hsamp] at hslen; simp at hslen
    | cons a l => rfl
  intro s hs
  have hclamp : clampQ s 0 1 = 0 := by
    unfold clampQ
    rw [min_eq_left (le_trans hs zero_le_one), max_eq_left hs]
  unfold chain_world_pos
  rw [hne]
  simp only [Bool.false_eq_true, if_false, hclamp, zero_mul]
  have hspec := binSearch_spec gs.cum_lengths 0 hpw
  rcases hbs : binSearch gs.cum_lengths 0 with i | i <;>
    rw [hbs] at hspec <;>
    simp only at hspec <;>
    have hsi : sampIdx gs 0 = i := by unfold sampIdx; rw [hbs]
  · -- Ok(i): cum[i] = 0
    rw [hsi]
    obtain ⟨hilt, hival⟩ := hspec
    rcases Nat.eq_zero_or_pos i with rfl | hipos
    · rw [if_pos rfl]
    · rw [if_neg (by omega)]
      rw [if_neg (by omega)]
      have hl1le : gs.cum_lengths.getD (i - 1) 0 ≤ 0 := by
        have := pairwise_getD_mono gs.cum_lengths hpw (i := i - 1) (j := i) (by omega) hilt
        rw [hival] at this; exact this
      have hl1ge : 0 ≤ gs.cum_lengths.getD (i - 1) 0 := by
        have := pairwise_getD_mono gs.cum_lengths hpw (i := 0) (j := i - 1) (by omega) (by omega)
        rw [hc0] at this; exact this
      have hl1 : gs.cum_lengths.getD (i - 1) 0 = 0 := le_antisymm hl1le hl1ge
      have hsamp_eq : gs.samples.getD 0 (0, 0) = gs.samples.getD (i - 1) (0, 0) := by
        refine samples_eq_of_cum_eq gs ⟨ds, hcum, hslen, hdprop, htot⟩ 0 (i - 1) (by omega)
          (by omega) ?_
        rw [hc0, hl1]
      rw [hl1, hival]
      simp only [sub_self, sub_zero, zero_div, mul_zero, add_zero, mul_one]
      rw [hsamp_eq]
  · -- Err(i): all entries below i are < 0, impossible unless i = 0
    rw [hsi]
    obtain ⟨hile, hlt, hgt⟩ := hspec
    have hi0 : i = 0 := by
      by_contra hne0
      have := hlt 0 (by omega)
      rw [hc0] at this
      exact absurd this (lt_irrefl 0)
    subst hi0
    rw [if_pos rfl]

theorem sampler_ge_one (gs : GameState) (hwf : PathWF gs) (hms : MinSep gs) :
    ∀ s : ℚ, 1 ≤ s → chain_world_pos gs s = gs.samples.getLastD (0, 0) := by
  obtain ⟨ds, hcum, hslen, hdprop, htot⟩ := hwf
  have hclen : gs.cum_lengths.length = ds.length + 1 := by
    rw [hcum]; exact List.length_scanl 0 ds
  have hpw : gs.cum_lengths.Pairwise (· ≤ ·) := by
    rw [hcum]; exact scanl_add_pairwise ds (fun k hk => (hdprop k hk).1)
  have hc0 : gs.cum_lengths.getD 0 0 = 0 := by
    rw [hcum]; exact scanl_add_getD_zero ds 0
  have hne : gs.samples.isEmpty = false := by
    cases hsamp : gs.samples with
    | nil => rw [hsamp] at hslen; simp at hslen
    | cons a l => rfl
  have hlastD : gs.cum_lengths.getLastD 0 = gs.cum_lengths.getD ds.length 0 := by
    rw [getLastD_eq_getD, hclen]; norm_num
  have hsampLast : gs.samples.getLastD (0, 0) = gs.samples.getD ds.length (0, 0) := by
    rw [getLastD_eq_getD, hslen]; norm_num
  intro s hs
  have hclamp : clampQ s 0 1 = 1 := by
    unfold clampQ
    rw [min_eq_right hs, max_eq_right zero_le_one]
  unfold chain_world_pos
  rw [hne]
  simp only [Bool.false_eq_true, if_false, hclamp, one_mul]
  by_cases h0 : 0 < gs.cum_lengths.getLastD 0
  · -- positive total length: target is the last cumulative entry
    have htoteq : gs.total_length = gs.cum_lengths.getD ds.length 0 := by
      rw [htot, if_pos h0, hlastD]
    rw [htoteq]
    have hspec := binSearch_spec gs.cum_lengths (gs.cum_lengths.getD ds.length 0) hpw
    rcases hbs : binSearch gs.cum_lengths (gs.cum_lengths.getD ds.length 0) with i | i <;>
      rw [hbs] at hspec <;>
      simp only at hspec <;>
      have hsi : sampIdx gs (gs.cum_lengths.getD ds.length 0) = i := by
        unfold sampIdx; rw [hbs]
    · obtain ⟨hilt, hival⟩ := hspec
      rw [hsi]
      have hipos : 0 < i := by
        rcases Nat.eq_zero_or_pos i with rfl | h
        · rw [hc0] at hival
          rw [hlastD] at h0
          rw [← hival] at h0
          exact absurd h0 (lt_irrefl 0)
        · exact h
      rw [if_neg (by omega), if_neg (by omega)]
      have hl1le : gs.cum_lengths.getD (i - 1) 0 ≤ gs.cum_lengths.getD i 0 :=
        pairwise_getD_mono gs.cum_lengths hpw (by omega) hilt
      rcases eq_or_lt_of_le hl1le with heq | hlt
      · -- degenerate bracket: both ends equal the target
        rw [heq, hival]
        simp only [sub_self, zero_div, mul_zero, add_zero, mul_one, sub_zero]
        have hse : gs.samples.getD (i - 1) (0, 0) = gs.samples.getD ds.length (0, 0) := by
          refine samples_eq_of_cum_eq gs ⟨ds, hcum, hslen, hdprop, htot⟩ (i - 1) ds.length
            (by omega) (by omega) ?_
          rw [heq, hival]
        rw [hsampLast, ← hse]
      · -- real bracket: the minimum-separation hypothesis gives the exact denominator
        have hsep := hms (i - 1) (by omega)
        rw [show i - 1 + 1 = i by omega] at hsep
        have hd : 1 / 1000000 ≤ gs.cum_lengths.getD i 0 - gs.cum_lengths.getD (i - 1) 0 := by
          rcases hsep with h | h
          · exact absurd (by linarith : gs.cum_lengths.getD i 0 = gs.cum_lengths.getD (i - 1) 0)
              (by linarith)
          · exact h
        rw [max_eq_left (by linarith), hival]
        rw [div_self (by linarith)]
        simp only [sub_self, mul_one, sub_zero, mul_zero, zero_add, mul_zero]
        have hse : gs.samples.getD i (0, 0) = gs.samples.getD ds.length (0, 0) := by
          refine samples_eq_of_cum_eq gs ⟨ds, hcum, hslen, hdprop, htot⟩ i ds.length
            (by omega) (by omega) ?_
          rw [hival]
        rw [hsampLast, ← hse]
    · obtain ⟨hile, hlt, hgt⟩ := hspec
      rw [hsi]
      have hieq : i = gs.cum_lengths.length := by
        rcases Nat.lt_or_ge i gs.cum_lengths.length with h | h
        · have := hgt ds.length (by omega) (by omega)
          exact absurd this (lt_irrefl _)
        · omega
      rw [if_neg (by omega), if_pos (by omega)]
  · -- degenerate path: every cumulative entry is zero and the total is 1
    have htoteq : gs.total_length = 1 := by rw [htot, if_neg h0]
    rw [htoteq]
    have hallz : ∀ j, j < gs.cum_lengths.length → gs.cum_lengths.getD j 0 = 0 := by
      intro j hj
      have h1 : 0 ≤ gs.cum_lengths.getD j 0 := by
        have := pairwise_getD_mono gs.cum_lengths hpw (i := 0) (j := j) (by omega) hj
        rw [hc0] at this; exact this
      have h2 : gs.cum_lengths.getD j 0 ≤ gs.cum_lengths.getD ds.length 0 :=
        pairwise_getD_mono gs.cum_lengths hpw (by omega) (by omega)
      rw [← hlastD] at h2
      have h3 : gs.cum_lengths.getLastD 0 ≤ 0 := not_lt.mp h0
      linarith
    have hspec := binSearch_spec gs.cum_lengths 1 hpw
    rcases hbs : binSearch gs.cum_lengths 1 with i | i <;>
      rw [hbs] at hspec <;>
      simp only at hspec <;>
      have hsi : sampIdx gs 1 = i := by unfold sampIdx; rw [hbs]
    · obtain ⟨hilt, hival⟩ := hspec
      rw [hallz i hilt] at hival
      norm_num at hival
    · obtain ⟨hile, hlt, hgt⟩ := hspec
      rw [hsi]
      have hieq : i = gs.cum_lengths.length := by
        rcases Nat.lt_or_ge i gs.cum_lengths.length with h | h
        · have h1 := hgt i (le_refl _) h
          rw [hallz i h] at h1
          norm_num at h1
        · omega
      rw [if_neg (by omega), if_pos (by omega)]

theorem sampler_mid (gs : GameState) (hwf : PathWF gs) (hms : MinSep gs)
    (hn2 : 2 ≤ gs.samples.length) (hpos : 0 < gs.cum_lengths.getLastD 0) :
    ∀ s : ℚ, 0 < s → s < 1 → IsBracketLerp gs s (chain_world_pos gs s) := by
  obtain ⟨ds, hcum, hslen, hdprop, htot⟩ := hwf
  have hclen : gs.cum_lengths.length = ds.length + 1 := by
    rw [hcum]; exact List.length_scanl 0 ds
  have hpw : gs.cum_lengths.Pairwise (· ≤ ·) := by
    rw [hcum]; exact scanl_add_pairwise ds (fun k hk => (hdprop k hk).1)
  have hc0 : gs.cum_lengths.getD 0 0 = 0 := by
    rw [hcum]; exact scanl_add_getD_zero ds 0
  have hne : gs.samples.isEmpty = false := by
    cases hsamp : gs.samples with
    | nil => rw [hsamp] at hslen; simp at hslen
    | cons a l => rfl
  have hlastD : gs.cum_lengths.getLastD 0 = gs.cum_lengths.getD ds.length 0 := by
    rw [getLastD_eq_getD, hclen]; norm_num
  intro s hs0 hs1
  have hclamp : clampQ s 0 1 = s := by
    unfold clampQ
    rw [min_eq_left (le_of_lt hs1), max_eq_right (le_of_lt hs0)]
  have htoteq : gs.total_length = gs.cum_lengths.getD ds.length 0 := by
    rw [htot, if_pos hpos, hlastD]
  have hLpos : 0 < gs.cum_lengths.getD ds.length 0 := by rw [← hlastD]; exact hpos
  have htpos : 0 < s * gs.total_length := by
    rw [htoteq]; exact mul_pos hs0 hLpos
  have htlt : s * gs.total_length < gs.cum_lengths.getD ds.length 0 := by
    rw [htoteq]
    calc s * gs.cum_lengths.getD ds.length 0
        < 1 * gs.cum_lengths.getD ds.length 0 := by
          exact mul_lt_mul_of_pos_right hs1 hLpos
      _ = gs.cum_lengths.getD ds.length 0 := one_mul _
  unfold chain_world_pos IsBracketLerp
  rw [hne]
  simp only [Bool.false_eq_true, if_false, hclamp]
  have hspec := binSearch_spec gs.cum_lengths (s * gs.total_length) hpw
  rcases hbs : binSearch gs.cum_lengths (s * gs.total_length) with i | i <;>
    rw [hbs] at hspec <;>
    simp only at hspec <;>
    have hsi : sampIdx gs (s * gs.total_length) = i := by unfold sampIdx; rw [hbs]
  · obtain ⟨hilt, hival⟩ := hspec
    have hipos : 0 < i := by
      rcases Nat.eq_zero_or_pos i with rfl | h
      · rw [hc0] at hival; rw [← hival] at htpos; exact absurd htpos (lt_irrefl 0)
      · exact h
    refine ⟨i, hipos, by omega, ?_, ?_, ?_⟩
    · rw [← hival]; exact pairwise_getD_mono gs.cum_lengths hpw (by omega) hilt
    · rw [hival]
    · rw [hsi, if_neg (by omega), if_neg (by omega)]
      have hl1le : gs.cum_lengths.getD (i - 1) 0 ≤ gs.cum_lengths.getD i 0 :=
        pairwise_getD_mono gs.cum_lengths hpw (by omega) hilt
      rcases eq_or_lt_of_le hl1le with heq | hlt
      · left
        refine ⟨heq, ?_⟩
        rw [heq, hival]
        simp only [sub_self, zero_div, mul_zero, add_zero, mul_one, sub_zero]
      · right
        refine ⟨hlt, ?_⟩
        have hsep := hms (i - 1) (by omega)
        rw [show i - 1 + 1 = i by omega] at hsep
        have hd : 1 / 1000000 ≤ gs.cum_lengths.getD i 0 - gs.cum_lengths.getD (i - 1) 0 := by
          rcases hsep with h | h
          · exact absurd (by linarith : gs.cum_lengths.getD i 0 = gs.cum_lengths.getD (i - 1) 0)
              (by linarith)
          · exact h
        rw [max_eq_left (by linarith)]
  · obtain ⟨hile, hlt2, hgt⟩ := hspec
    have hipos : 0 < i := by
      rcases Nat.eq_zero_or_pos i with rfl | h
      · have := hgt 0 (le_refl _) (by omega)
        rw [hc0] at this
        exact absurd (lt_trans htpos this) (lt_irrefl 0)
      · exact h
    have hilt : i < gs.cum_lengths.length := by
      rcases Nat.lt_or_ge i gs.cum_lengths.length with h | h
      · exact h
      · have hieq : i = gs.cum_lengths.length := by omega
        have := hlt2 ds.length (by omega)
        exact absurd (lt_trans this htlt) (lt_irrefl _)
    refine ⟨i, hipos, by omega, le_of_lt (hlt2 (i - 1) (by omega)), le_of_lt (hgt i (le_refl _) hilt), ?_⟩
    have hbra1 : gs.cum_lengths.getD (i - 1) 0 < s * gs.total_length := hlt2 (i - 1) (by omega)
    have hbra2 : s * gs.total_length < gs.cum_lengths.getD i 0 := hgt i (le_refl _) hilt
    right
    refine ⟨lt_trans hbra1 hbra2, ?_⟩
    rw [hsi, if_neg (by omega), if_neg (by omega)]
    have hsep := hms (i - 1) (by omega)
    rw [show i - 1 + 1 = i by omega] at hsep
    have hd : 1 / 1000000 ≤ gs.cum_lengths.getD i 0 - gs.cum_lengths.getD (i - 1) 0 := by
      rcases hsep with h | h
      · have : gs.cum_lengths.getD i 0 = gs.cum_lengths.getD (i - 1) 0 := by linarith
        rw [this] at hbra2
        exact absurd (lt_trans hbra1 hbra2) (lt_irrefl _)
      · exact h
    rw [max_eq_left (by linarith)]

/-- Claim C7 (amended): for every well-formed path whose consecutive
samples are either identical or at least `1e-6` apart in arc length,
`chain_world_pos` returns the first sample for `s ≤ 0` and the last
sample for `s ≥ 1`; and when the path has at least two samples and
positive total length, intermediate `s` returns the linear interpolation
between the two samples bracketing `clamp(s,0,1) * total_length` in the
cumulative-length table. -/
theorem C7_sampler_endpoints (gs : GameState) (hwf : PathWF gs) (hms : MinSep gs) :
    (∀ s : ℚ, s ≤ 0 → chain_world_pos gs s = gs.samples.getD 0 (0, 0)) ∧
    (∀ s : ℚ, 1 ≤ s → chain_world_pos gs s = gs.samples.getLastD (0, 0)) ∧
    (2 ≤ gs.samples.length → 0 < gs.cum_lengths.getLastD 0 →
      ∀ s : ℚ, 0 < s → s < 1 → IsBracketLerp gs s (chain_world_pos gs s)) :=
  ⟨sampler_le_zero gs hwf, sampler_ge_one gs hwf hms,
    fun h2 hpos => sampler_mid gs hwf hms h2 hpos⟩

/-- A well-formed path whose last two samples are `1e-7` apart: closer
than the `1e-6` denominator clamp of `chain_world_pos`. -/
def samplerCexPath : GameState where
  players := []
  marbles := []
  chain := []
  current_score := 0
  samples := [(0, 0), (1, 0), (1 + 1 / 10000000, 0)]
  cum_lengths := [0, 1, 1 + 1 / 10000000]
  total_length := 1 + 1 / 10000000
  spawn_accum := 0
  spawn_interval := 3 / 4
  marble_diameter := 2 / 5
  spacing_length := 51 / 125
  chain_speed := 1 / 50
  next_player_id := 0
  next_marble_id := 0
  token_map := []

/-- Claim C7, counterexample: on a well-formed path with a non-empty
sample list, `chain_world_pos 1` can differ from the last sample — the
denominator clamp `max(l2 - l1, 1e-6)` distorts the interpolation when
the final bracket is narrower than `1e-6`, so the claim as stated is
false. -/
theorem C7_sampler_counterexample :
    PathWF samplerCexPath ∧ samplerCexPath.samples ≠ [] ∧
    chain_world_pos samplerCexPath 1 ≠ samplerCexPath.samples.getLastD (0, 0) := by
  refine ⟨⟨[1, 1 / 10000000], ?_, ?_, ?_, ?_⟩, ?_, ?_⟩
  · norm_num [samplerCexPath, List.scanl]
  · norm_num [samplerCexPath]
  · intro i hi
    simp only [List.length_cons, List.length_nil] at hi
    interval_cases i <;> norm_num [samplerCexPath, List.getD, Prod.ext_iff]
  · norm_num [samplerCexPath, List.getLastD]
  · simp [samplerCexPath]
  · norm_num [chain_world_pos, samplerCexPath, clampQ, sampIdx, binSearch, bsLoop,
      List.getD, List.getLastD, Prod.ext_iff]

/-- A well-separated two-segment path used to witness the amended sampler
claim. -/
def samplerWitnessPath : GameState :=
  { samplerCexPath with
      samples := [(0, 0), (2, 0), (2, 2)]
      cum_lengths := [0, 2, 4]
      total_length := 4 }

theorem C7_sampler_witness :
    PathWF samplerWitnessPath ∧ MinSep samplerWitnessPath ∧
    chain_world_pos samplerWitnessPath (-1) = samplerWitnessPath.samples.getD 0 (0, 0) ∧
    chain_world_pos samplerWitnessPath 2 = samplerWitnessPath.samples.getLastD (0, 0) ∧
    IsBracketLerp samplerWitnessPath (1 / 4)
      (chain_world_pos samplerWitnessPath (1 / 4)) := by
  have hwf : PathWF samplerWitnessPath := by
    refine ⟨[2, 2], ?_, ?_, ?_, ?_⟩
    · norm_num [samplerWitnessPath, samplerCexPath, List.scanl]
    · norm_num [samplerWitnessPath, samplerCexPath]
    · intro i hi
      simp only [List.length_cons, List.length_nil] at hi
      interval_cases i <;>
        norm_num [samplerWitnessPath, samplerCexPath, List.getD, Prod.ext_iff]
    · norm_num [samplerWitnessPath, samplerCexPath, List.getLastD]
  have hms : MinSep samplerWitnessPath := by
    intro i hi
    have hi2 : i < 2 := by
      simp [samplerWitnessPath, samplerCexPath] at hi
      omega
    interval_cases i <;>
      norm_num [samplerWitnessPath, samplerCexPath, List.getD]
  refine ⟨hwf, hms, ?_, ?_, ?_⟩
  · exact (C7_sampler_endpoints _ hwf hms).1 (-1) (by norm_num)
  · exact (C7_sampler_endpoints _ hwf hms).2.1 2 (by norm_num)
  · exact (C7_sampler_endpoints _ hwf hms).2.2
      (by norm_num [samplerWitnessPath, samplerCexPath])
      (by norm_num [samplerWitnessPath, samplerCexPath, List.getLastD]) (1 / 4)
      (by norm_num) (by norm_num)

theorem isEmpty_false_of_lt_length {α : Type _} (l : List α) (n : Nat)
    (h : n < l.length) : l.isEmpty = false := by
  cases l with
  | nil => simp at h
  | cons a t => rfl

/-- Full behavioural description of `try_remove_matches`: length
preservation, in-place clearing of a run of length ≥ 3, and the no-op
cases. -/
theorem trm_spec (chain : List ChainMarble) (idx : Nat) :
    (try_remove_matches chain idx).length = chain.length ∧
    (∀ color, idx < chain.length → (chain.getD idx default).color = some color →
      (3 ≤ 1 + leftRun chain color idx + rightRun chain color idx →
        ∀ j,
          ((idx - leftRun chain color idx ≤ j ∧ j ≤ idx + rightRun chain color idx) →
            (try_remove_matches chain idx).get? j =
              (chain.get? j).map (fun cm => { cm with id := none, color := none })) ∧
          (¬(idx - leftRun chain color idx ≤ j ∧ j ≤ idx + rightRun chain color idx) →
            (try_remove_matches chain idx).get? j = chain.get? j)) ∧
      (1 + leftRun chain color idx + rightRun chain color idx < 3 →
        try_remove_matches chain idx = chain)) ∧
    ((chain.length ≤ idx ∨ (chain.getD idx default).color = none) →
      try_remove_matches chain idx = chain) := by
  refine ⟨?_, ?_, ?_⟩
  · -- length is always preserved
    unfold try_remove_matches
    by_cases h1 : chain.isEmpty
    · simp [h1]
    · simp only [h1, Bool.false_eq_true, if_false]
      by_cases h2 : chain.length ≤ idx
      · simp [h2]
      · simp only [h2, if_false]
        rcases hcol : (chain.getD idx default).color with _ | color
        · rfl
        · by_cases h3 : 3 ≤ 1 + leftRun chain color idx + rightRun chain color idx
          · simp only [h3, if_true]
            exact clearRange_length _ _ _
          · simp [h3]
  · -- the run case
    intro color hidx hcol
    have hne : chain.isEmpty = false := isEmpty_false_of_lt_length chain idx hidx
    have hminb : min (idx + rightRun chain color idx) (chain.length - 1) =
        idx + rightRun chain color idx := by
      have := rightRun_le chain color idx
      omega
    constructor
    · intro h3 j
      have hred : try_remove_matches chain idx =
          clearRange chain (idx - leftRun chain color idx)
            (idx + rightRun chain color idx) := by
        unfold try_remove_matches
        simp only [hne, Bool.false_eq_true, if_false, if_neg (not_le.mpr hidx), hcol]
        simp only [h3, if_true, hminb]
      constructor
      · intro hj
        rw [hred, clearRange_get?, if_pos hj]
      · intro hj
        rw [hred, clearRange_get?, if_neg hj]
    · intro h3
      unfold try_remove_matches
      simp only [hne, Bool.false_eq_true, if_false, if_neg (not_le.mpr hidx), hcol]
      simp only [if_neg (not_le.mpr h3)]
  · -- the no-op cases
    intro h
    unfold try_remove_matches
    by_cases h1 : chain.isEmpty
    · simp [h1]
    · simp only [h1, Bool.false_eq_true, if_false]
      rcases h with h | h
      · simp [h]
      · by_cases h2 : chain.length ≤ idx
        · simp [h2]
        · simp only [h2, if_false, h]

/-- Claim C4: `try_remove_matches` never changes the chain's length; with a
colored entry at `idx` whose same-color run (as counted by the source's
left/right loops) has total length ≥ 3 it turns exactly the entries of
the inclusive run into gaps (`id = none`, `color = none`) in place,
keeping every `s` and leaving all other entries unchanged; a run shorter
than 3, an out-of-range index, or a gap at `idx` leaves the chain
entirely unchanged. -/
theorem C4_gap_persistence (chain : List ChainMarble) (idx : Nat) :
    (try_remove_matches chain idx).length = chain.length ∧
    (∀ color, idx < chain.length → (chain.getD idx default).color = some color →
      (3 ≤ 1 + leftRun chain color idx + rightRun chain color idx →
        ∀ j,
          ((idx - leftRun chain color idx ≤ j ∧ j ≤ idx + rightRun chain color idx) →
            (try_remove_matches chain idx).get? j =
              (chain.get? j).map (fun cm => { cm with id := none, color := none })) ∧
          (¬(idx - leftRun chain color idx ≤ j ∧ j ≤ idx + rightRun chain color idx) →
            (try_remove_matches chain idx).get? j = chain.get? j)) ∧
      (1 + leftRun chain color idx + rightRun chain color idx < 3 →
        try_remove_matches chain idx = chain)) ∧
    ((chain.length ≤ idx ∨ (chain.getD idx default).color = none) →
      try_remove_matches chain idx = chain) :=
  trm_spec chain idx

/-- Claim C5: resolving matches is idempotent — a second invocation of
`try_remove_matches` at the same index with no intervening mutation is a
no-op (the run, once resolved, leaves a gap at the index, and the
resolver returns early on gaps). -/
theorem C5_match_idempotent (chain : List ChainMarble) (idx : Nat) :
    try_remove_matches (try_remove_matches chain idx) idx = try_remove_matches chain idx := by
  by_cases h1 : chain.isEmpty
  · have h : try_remove_matches chain idx = chain := by
      unfold try_remove_matches; simp [h1]
    rw [h]; exact h
  · by_cases h2 : chain.length ≤ idx
    · have h : try_remove_matches chain idx = chain :=
        (trm_spec chain idx).2.2 (Or.inl h2)
      rw [h]; exact h
    · rcases hcol : (chain.getD idx default).color with _ | color
      · have h : try_remove_matches chain idx = chain :=
          (trm_spec chain idx).2.2 (Or.inr hcol)
        rw [h]; exact h
      · have hidx : idx < chain.length := not_le.mp h2
        by_cases h3 : 3 ≤ 1 + leftRun chain color idx + rightRun chain color idx
        · -- the run was cleared: the entry at idx is now a gap
          have hrun := ((trm_spec chain idx).2.1 color hidx hcol).1 h3 idx
          have hin : idx - leftRun chain color idx ≤ idx ∧
              idx ≤ idx + rightRun chain color idx := by omega
          have hget := hrun.1 hin
          have hlen : (try_remove_matches chain idx).length = chain.length :=
            (trm_spec chain idx).1
          have hsome : chain.get? idx = some (chain.getD idx default) := by
            rw [List.get?_eq_getElem?, List.getD_eq_getElem?_getD,
              List.getElem?_eq_getElem hidx]
            rfl
          have hgap : ((try_remove_matches chain idx).getD idx default).color = none := by
            rw [List.getD_eq_getElem?_getD, ← List.get?_eq_getElem?, hget, hsome]
            rfl
          exact (trm_spec (try_remove_matches chain idx) idx).2.2 (Or.inr hgap)
        · have h : try_remove_matches chain idx = chain :=
            ((trm_spec chain idx).2.1 color hidx hcol).2 (not_le.mp h3)
          rw [h]; exact h

/-! ## Colors and random draws (game.rs lines 886-922) -/

/-- The fixed color palette of game.rs. -/
def palette : List String := ["red", "green", "blue", "yellow", "purple"]

/-- Rust's `f32 as usize` cast for the nonnegative draws used here:
truncation toward zero, saturating at zero for negative values. -/
def f32_as_usize (q : ℚ) : Nat := (⌊q⌋).toNat

/-- `random_color_with_rng` of game.rs. -/
def random_color_with_rng (rng : Rng) : String × Rng :=
  let r := rng.nextF
  (palette.getD (f32_as_usize (r.1 * (palette.length : ℚ)) % palette.length) "", r.2)

/-- The `recent_marbles`/`recent_colors` computation of
`random_color_chain`: the colors present among the last (up to) 10 chain
entries. -/
def recent_colors (chain : List ChainMarble) : List String :=
  (chain.drop (chain.length - min chain.length 10)).filterMap (fun cm => cm.color)

/-- `random_color_chain` of game.rs: with probability 0.6 duplicate a
color drawn from the recent chain suffix, otherwise (or when the chain is
short or the suffix is all gaps) draw uniformly from the palette. -/
def random_color_chain (rng : Rng) (chain : List ChainMarble) : String × Rng :=
  if chain.length < 3 then
    let r := rng.nextF
    (palette.getD (f32_as_usize (r.1 * (palette.length : ℚ)) % palette.length) "", r.2)
  else
    let p := rng.nextF
    if p.1 < 3 / 5 then
      if (recent_colors chain).isEmpty then
        let r := p.2.nextF
        (palette.getD (f32_as_usize (r.1 * (palette.length : ℚ)) % palette.length) "", r.2)
      else
        let r := p.2.nextF
        ((recent_colors chain).getD
          (f32_as_usize (r.1 * ((recent_colors chain).length : ℚ)) %
            (recent_colors chain).length) "", r.2)
    else
      let r := p.2.nextF
      (palette.getD (f32_as_usize (r.1 * (palette.length : ℚ)) % palette.length) "", r.2)

/-- Hexadecimal digits. -/
def hexChars : List Char :=
  "0123456789abcdef".toList

/-- `format!("{:032x}", n)` for `n : u128`: exactly 32 hex digits. -/
def toHex32 (n : Nat) : String :=
  String.mk ((List.range 32).map (fun i => hexChars.getD (n / 16 ^ (31 - i) % 16) '0'))

/-- `generate_token` of game.rs (lines 924-927). -/
def generate_token (rng : Rng) : String × Rng :=
  let n := rng.nextN
  (toHex32 (n.1 % 2 ^ 128), n.2)

/-! ## Association-list model of `HashMap` -/

def mapLookup {α β : Type _} [DecidableEq α] (k : α) : List (α × β) → Option β
  | [] => none
  | (k', v') :: rest => if k' = k then some v' else mapLookup k rest

def mapInsert {α β : Type _} [DecidableEq α] (k : α) (v : β) : List (α × β) → List (α × β)
  | [] => [(k, v)]
  | (k', v') :: rest => if k' = k then (k, v) :: rest else (k', v') :: mapInsert k v rest

theorem mapLookup_mapInsert_self {α β : Type _} [DecidableEq α] (k : α) (v : β)
    (m : List (α × β)) : mapLookup k (mapInsert k v m) = some v := by
  induction m with
  | nil => simp [mapLookup, mapInsert]
  | cons kv rest ih =>
    rcases kv with ⟨k', v'⟩
    by_cases h : k' = k
    · simp [mapLookup, mapInsert, h]
    · simp [mapLookup, mapInsert, h, ih]

/-! ## Aim, shoot, join (game.rs lines 223-351) -/

/-- The `for (_token, pp) in token_map.iter_mut()` loop of `handle_aim`:
update the first persistent player bound to `addr` and stop. -/
def aimSyncTokens (addr : Nat) (yaw : ℚ) :
    List (String × PersistentPlayer) → List (String × PersistentPlayer)
  | [] => []
  | (k, pp) :: rest =>
    if pp.addr = some addr then (k, { pp with yaw := yaw }) :: rest
    else (k, pp) :: aimSyncTokens addr yaw rest

/-- `handle_aim` of game.rs. -/
def handle_aim (gs : GameState) (addr : Nat) (yaw : ℚ) : GameState :=
  match mapLookup addr gs.players with
  | none => gs
  | some p =>
    { gs with players := mapInsert addr { p with yaw := yaw } gs.players,
              token_map := aimSyncTokens addr yaw gs.token_map }

/-- The token-map synchronisation loop of `handle_shoot`. -/
def shootSyncTokens (addr : Nat) (lc nc : String) :
    List (String × PersistentPlayer) → List (String × PersistentPlayer)
  | [] => []
  | (k, pp) :: rest =>
    if pp.addr = some addr then
      (k, { pp with loaded_color := lc, next_color := nc }) :: rest
    else (k, pp) :: shootSyncTokens addr lc nc rest

/-- `handle_shoot` of game.rs: spawn a projectile with the player's loaded
color, rotate loaded/next, draw a fresh next color. -/
def handle_shoot (ext : Fext) (gs : GameState) (addr : Nat) (rng : Rng) :
    Option Marble × GameState × Rng :=
  match mapLookup addr gs.players with
  | none => (none, gs, rng)
  | some p =>
    let mid := gs.next_marble_id
    let vx := ext.sin p.yaw * 8
    let vz := ext.cos p.yaw * 8
    let color := p.loaded_color
    let loaded' := p.next_color
    let nr := random_color_with_rng rng
    let p' := { p with loaded_color := loaded', next_color := nr.1 }
    let marble : Marble := ⟨mid, p.x, p.y + 1 / 10, p.z, vx, 0, vz, 8, color, none⟩
    (some marble,
     { gs with players := mapInsert addr p' gs.players,
               token_map := shootSyncTokens addr loaded' nr.1 gs.token_map,
               marbles := gs.marbles ++ [marble],
               next_marble_id := mid + 1 }, nr.2)

/-- The fresh-player path of `join_with_token`: deterministic spawn
positions for the first two connected players, pseudo-random afterwards;
fresh loaded/next colors and a fresh token. -/
def join_fresh (ext : Fext) (gs : GameState) (addr : Nat) (rng : Rng) :
    (String × Player) × GameState × Rng :=
  let id := gs.next_player_id
  let cc := (gs.token_map.filter (fun kv => kv.2.connected)).length
  let posr : (ℚ × ℚ) × Rng :=
    if cc = 0 then (((-2 : ℚ), (0 : ℚ)), rng)
    else if cc = 1 then (((2 : ℚ), (0 : ℚ)), rng)
    else
      let rv := rng.nextF
      ((((2 : ℚ) + rv.1 * 2) * ext.sin ((id : ℚ) * (309 / 500)),
        ((2 : ℚ) + rv.1 * 2) * ext.cos ((id : ℚ) * (309 / 500))), rv.2)
  let lr := random_color_with_rng posr.2
  let nr := random_color_with_rng lr.2
  let tr := generate_token nr.2
  let persistent : PersistentPlayer :=
    ⟨id, posr.1.1, 0, posr.1.2, 0, lr.1, nr.1, true, some addr⟩
  let player : Player := ⟨id, posr.1.1, 0, posr.1.2, 0, lr.1, nr.1⟩
  ((tr.1, player),
   { gs with next_player_id := id + 1,
             token_map := mapInsert tr.1 persistent gs.token_map,
             players := mapInsert addr player gs.players }, tr.2)

/-- `join_with_token` of game.rs: restore the persistent player bound to a
known token, or create a fresh persistent player otherwise. -/
def join_with_token (ext : Fext) (gs : GameState) (token_opt : Option String) (addr : Nat)
    (rng : Rng) : (String × Player) × GameState × Rng :=
  match token_opt with
  | some token =>
    match mapLookup token gs.token_map with
    | some pp =>
      let player : Player := ⟨pp.id, pp.x, pp.y, pp.z, pp.yaw, pp.loaded_color, pp.next_color⟩
      ((token, player),
       { gs with
           token_map := mapInsert token { pp with connected := true, addr := some addr }
             gs.token_map,
           players := mapInsert addr player gs.players }, rng)
    | none => join_fresh ext gs addr rng
  | none => join_fresh ext gs addr rng

/-- Claim C8: for an endpoint with no corresponding player, `handle_shoot`
returns `None` and changes nothing (no marble, no id-counter advance, no
player or token-map change), and `handle_aim` likewise changes nothing. -/
theorem C8_unknown_endpoint_noop (ext : Fext) (gs : GameState) (addr : Nat) (rng : Rng)
    (yaw : ℚ) (h : mapLookup addr gs.players = none) :
    handle_shoot ext gs addr rng = (none, gs, rng) ∧ handle_aim gs addr yaw = gs := by
  unfold handle_shoot handle_aim
  rw [h]
  exact ⟨rfl, rfl⟩

/-- A minimal concrete game state with no players. -/
def emptyGS : GameState where
  players := []
  marbles := []
  chain := []
  current_score := 0
  samples := [(0, 0), (10, 0)]
  cum_lengths := [0, 10]
  total_length := 10
  spawn_accum := 0
  spawn_interval := 3 / 4
  marble_diameter := 2 / 5
  spacing_length := 51 / 125
  chain_speed := 1 / 50
  next_player_id := 0
  next_marble_id := 0
  token_map := []

/-- A concrete instantiation of the abstract machine math functions. -/
def extId : Fext := ⟨fun q => q, fun q => q, fun q => q⟩

theorem C8_unknown_endpoint_noop_witness :
    handle_shoot extId emptyGS 7 ⟨[], []⟩ = (none, emptyGS, ⟨[], []⟩) ∧
    handle_aim emptyGS 7 0 = emptyGS :=
  C8_unknown_endpoint_noop extId emptyGS 7 ⟨[], []⟩ 0 rfl

/-- Claim C9: joining with a token that is not in the token map behaves
exactly like joining with no token: nothing is restored and nothing
fails — a brand-new persistent player is created with a freshly generated
32-hex-character token, that token is inserted into the token map, and it
(not the supplied token) is returned. -/
theorem C9_unknown_token_fresh_join (ext : Fext) (gs : GameState) (token : String)
    (addr : Nat) (rng : Rng) (h : mapLookup token gs.token_map = none) :
    join_with_token ext gs (some token) addr rng = join_with_token ext gs none addr rng ∧
    ((join_with_token ext gs (some token) addr rng).1.1).length = 32 ∧
    (∀ c ∈ ((join_with_token ext gs (some token) addr rng).1.1).data, c ∈ hexChars) ∧
    (∃ n : Nat, (join_with_token ext gs (some token) addr rng).1.1 = toHex32 (n % 2 ^ 128)) ∧
    (join_with_token ext gs (some token) addr rng).1.2.id = gs.next_player_id ∧
    (join_with_token ext gs (some token) addr rng).2.1.next_player_id =
      gs.next_player_id + 1 ∧
    (∃ pp : PersistentPlayer,
      mapLookup ((join_with_token ext gs (some token) addr rng).1.1)
          ((join_with_token ext gs (some token) addr rng).2.1.token_map) = some pp ∧
      pp.id = gs.next_player_id ∧ pp.connected = true ∧ pp.addr = some addr) := by
  have hred : join_with_token ext gs (some token) addr rng = join_fresh ext gs addr rng := by
    simp only [join_with_token]
    rw [h]
  have hlen : ∀ n : Nat, (toHex32 n).length = 32 := by
    intro n
    simp [toHex32, String.length]
  have hhex : ∀ n : Nat, ∀ c ∈ (toHex32 n).data, c ∈ hexChars := by
    intro n c hc
    simp only [toHex32, String.mk, List.mem_map, List.mem_range] at hc
    obtain ⟨i, _, rfl⟩ := hc
    have hmod : n / 16 ^ (31 - i) % 16 < hexChars.length := by
      have : n / 16 ^ (31 - i) % 16 < 16 := Nat.mod_lt _ (by norm_num)
      simpa [hexChars] using this
    rw [List.getD_eq_getElem _ _ hmod]
    exact List.getElem_mem hmod
  refine ⟨by rw [hred]; rfl, ?_, ?_, ?_, ?_, ?_, ?_⟩
  · rw [hred]
    exact hlen _
  · rw [hred]
    exact hhex _
  · rw [hred]
    exact ⟨(Rng.nextN _).1, rfl⟩
  · rw [hred]
    rfl
  · rw [hred]
    rfl
  · rw [hred]
    simp only [join_fresh]
    exact ⟨_, mapLookup_mapInsert_self _ _ _, rfl, rfl, rfl⟩

/-- C9 witness at a concrete state, token, and draw stream. -/
theorem C9_unknown_token_fresh_join_witness :
    join_with_token extId emptyGS (some "deadbeef") 7 ⟨[1 / 2, 1 / 2], [5]⟩ =
      join_with_token extId emptyGS none 7 ⟨[1 / 2, 1 / 2], [5]⟩ ∧
    ((join_with_token extId emptyGS (some "deadbeef") 7 ⟨[1 / 2, 1 / 2], [5]⟩).1.1).length =
      32 ∧
    (join_with_token extId emptyGS (some "deadbeef") 7
        ⟨[1 / 2, 1 / 2], [5]⟩).2.1.next_player_id = 1 := by
  have h := C9_unknown_token_fresh_join extId emptyGS "deadbeef" 7 ⟨[1 / 2, 1 / 2], [5]⟩ rfl
  exact ⟨h.1, h.2.1, h.2.2.2.2.2.1⟩

/-! ## Spacing equalizer: `equalize_chain_spacing` (game.rs lines 408-476) -/

/-- The stable sort of chain indices by ascending `s` (Rust's
`order.sort_by(...)`; `sort_by` is a stable sort, as is insertion sort). -/
def orderIndices (chain : List ChainMarble) : List Nat :=
  List.insertionSort (fun a b => (chain.getD a default).s ≤ (chain.getD b default).s)
    (List.range chain.length)

/-- The segment-collection loop: maximal contiguous runs of non-gap
entries of the `s`-ordered index list, gaps acting as separators. -/
def buildSegsAux (chain : List ChainMarble) : List Nat → List Nat → List (List Nat)
  | [], cur => if cur.isEmpty then [] else [cur]
  | idx :: rest, cur =>
    if ((chain.getD idx default).color).isSome then buildSegsAux chain rest (cur ++ [idx])
    else if cur.isEmpty then buildSegsAux chain rest []
    else cur :: buildSegsAux chain rest []

def chainSegments (chain : List ChainMarble) : List (List Nat) :=
  buildSegsAux chain (orderIndices chain) []

/-- Rust's `iter().max_by(...)` on a list of rationals (`0` for an empty
list, mirroring the guarded `unwrap_or(0.0)` uses). -/
def maxByLast (l : List ℚ) : ℚ :=
  match l with
  | [] => 0
  | x :: xs => xs.foldl (fun a b => if a ≤ b then b else a) x

/-- Overwrite only the `s` of the entry at `i`. -/
def setS (chain : List ChainMarble) (i : Nat) (v : ℚ) : List ChainMarble :=
  match chain.get? i with
  | some cm => chain.set i { cm with s := v }
  | none => chain

/-- Re-space one contiguous segment: desired arc lengths
`L_head - i * spacing` (head first), clamped at 0, reversed to tail→head
order, written back as clamped fractions of the total length. -/
def applySeg (T spacing : ℚ) (chain : List ChainMarble) (seg : List Nat) :
    List ChainMarble :=
  let seg_s := seg.map (fun i => (chain.getD i default).s)
  if seg_s.isEmpty then chain
  else
    let L_head := maxByLast seg_s * T
    let desired :=
      (((List.range seg.length).map (fun i : Nat => L_head - (i : ℚ) * spacing)).map
        (fun d => if d < 0 then 0 else d)).reverse
    (seg.zip desired).foldl
      (fun ch p => setS ch p.1 (if 0 < T then clampQ (p.2 / T) 0 1 else 0)) chain

/-- The chain-level body of `equalize_chain_spacing`: the method reads
`total_length` and `spacing_length` and rewrites only `chain`. -/
def equalizeChain (T spacing_length : ℚ) (chain : List ChainMarble) : List ChainMarble :=
  if chain.isEmpty ∨ T ≤ 0 then chain
  else (chainSegments chain).foldl (applySeg T (max spacing_length (1 / 1000))) chain

/-- `equalize_chain_spacing` of game.rs. -/
def equalize_chain_spacing (gs : GameState) : GameState :=
  { gs with chain := equalizeChain gs.total_length gs.spacing_length gs.chain }

/-! ## Collision and insertion (game.rs lines 479-772) -/

/-- Rust's stable `sort_by` on the chain, by ascending `s`. -/
def sortChain (l : List ChainMarble) : List ChainMarble :=
  List.insertionSort (fun a b => a.s ≤ b.s) l

/-- `find_collision_index` of game.rs: nearest non-gap chain marble within
the capture radius, with the head-bias tie-break.  Only the selection is
embedded; the head-distance logging of the source is omitted. -/
def find_collision_index (ext : Fext) (gs : GameState) (marble : Marble) : Option Nat :=
  if gs.chain.isEmpty ∨ gs.samples.isEmpty then none
  else
    let cd := max (gs.marble_diameter * (9 / 5)) (7 / 10)
    let csq := cd * cd
    (gs.chain.enum.foldl
      (fun (best : Option (Nat × ℚ × ℚ)) p =>
        match p.2.color with
        | none => best
        | some _ =>
          let w := chain_world_pos gs p.2.s
          let dx := marble.x - w.1
          let dz := marble.z - w.2
          let d2 := dx * dx + dz * dz
          let dist := ext.sqrt d2
          if d2 ≤ csq then
            match best with
            | none => some (p.1, dist, p.2.s)
            | some q =>
              if dist < q.2.1 - 3 / 20 ∨ (dist < q.2.1 + 3 / 20 ∧ q.2.2 < p.2.s) then
                some (p.1, dist, p.2.s)
              else some q
          else best)
      none).map (fun q => q.1)

/-- Maximum `s` among colored chain entries (`unwrap_or(0.0)`). -/
def maxColoredS (chain : List ChainMarble) : ℚ :=
  maxByLast (chain.filterMap (fun cm => if cm.color.isSome then some cm.s else none))

/-- Overwrite only the `color` of the entry at `i`. -/
def setColor (chain : List ChainMarble) (i : Nat) (c : Option String) : List ChainMarble :=
  match chain.get? i with
  | some cm => chain.set i { cm with color := c }
  | none => chain

/-- The gap-bridging step of `insert_into_chain`: a gap adjacent to the
freshly inserted marble is recolored when the entry one slot beyond it
matches the inserted color. -/
def bridgeGaps (chain : List ChainMarble) (new_id : Nat) : List ChainMarble :=
  match chain.findIdx? (fun c => c.id == some new_id) with
  | none => chain
  | some t =>
    match (chain.getD t default).color with
    | none => chain
    | some color =>
      let c1 :=
        if 0 < t ∧ (chain.getD (t - 1) default).color = none ∧ 2 ≤ t ∧
            (chain.getD (t - 2) default).color = some color then
          setColor chain (t - 1) (some color)
        else chain
      if t + 1 < c1.length ∧ (c1.getD (t + 1) default).color = none ∧
          t + 2 < c1.length ∧ (c1.getD (t + 2) default).color = some color then
        setColor c1 (t + 1) (some color)
      else c1

/-- The isolated-gap cleanup loop of `insert_into_chain`: drop every gap
that lacks a colored neighbour on either side. -/
def rigLoop : Nat → List ChainMarble → Nat → List ChainMarble
  | 0, ch, _ => ch
  | f + 1, ch, i =>
    if i < ch.length then
      if (ch.getD i default).color = none then
        if (0 < i ∧ (ch.getD (i - 1) default).color.isSome) ∧
            (i + 1 < ch.length ∧ (ch.getD (i + 1) default).color.isSome) then
          rigLoop f ch (i + 1)
        else rigLoop f (ch.eraseIdx i) i
      else rigLoop f ch (i + 1)
    else ch

def removeIsolatedGaps (ch : List ChainMarble) : List ChainMarble :=
  rigLoop (ch.length + 1) ch 0

/-- The left scan of `insert_into_chain`: extend the color group leftwards,
skipping single gaps whose far side continues the color. -/
def scanLeftF (chain : List ChainMarble) (color : String) : Nat → Nat → Nat
  | 0, p => p
  | f + 1, p =>
    if p = 0 then 0
    else
      match (chain.getD (p - 1) default).color with
      | some c' => if c' = color then scanLeftF chain color f (p - 1) else p
      | none =>
        if 2 ≤ p ∧ (chain.getD (p - 2) default).color = some color then
          scanLeftF chain color f (p - 2)
        else p

def scanLeft (chain : List ChainMarble) (color : String) (start : Nat) : Nat :=
  scanLeftF chain color start start

/-- Rust's `Vec::swap_remove`. -/
def swapRemove {α : Type _} [Inhabited α] (l : List α) (i : Nat) : List α :=
  if i < l.length then (l.set i (l.getD (l.length - 1) default)).dropLast else l

/-- `insert_into_chain` of game.rs: push the captured marble near the
collision point, re-sort, bridge adjacent matching gaps, re-equalize,
drop isolated gaps, then resolve matches from the left end of the
inserted marble's color group.  (The right scan of the source is computed
only for logging and is omitted.) -/
def insertChain (spacing_length T : ℚ) (chain : List ChainMarble) (marble : Marble)
    (coll_idx : Nat) : List ChainMarble :=
  if chain.isEmpty then [⟨some marble.id, 0, some marble.color⟩]
  else
    let cur_s := (chain.getD coll_idx default).s
    let spacing := spacing_length / max T (1 / 10)
    let is_true_head := |cur_s - maxColoredS chain| < 1 / 1000
    let insert_s :=
      if is_true_head then min (cur_s + spacing * (1 / 10)) 1
      else max (cur_s - spacing) 0
    let chain1 := sortChain (chain ++ [⟨some marble.id, insert_s, some marble.color⟩])
    let chain2 := bridgeGaps chain1 marble.id
    let chain3 := removeIsolatedGaps (equalizeChain T spacing_length chain2)
    match chain3.findIdx? (fun c => c.id == some marble.id) with
    | none => chain3
    | some final_idx =>
      match (chain3.getD final_idx default).color with
      | none => chain3
      | some color => try_remove_matches chain3 (scanLeft chain3 color final_idx)

/-- `insert_into_chain` of game.rs: `insertChain` on the state's chain; the
method reads `spacing_length` and `total_length` and rewrites only
`chain`. -/
def insert_into_chain (gs : GameState) (marble : Marble) (coll_idx : Nat) : GameState :=
  { gs with
      chain := insertChain gs.spacing_length gs.total_length gs.chain marble coll_idx }

/-! ## Simulation tick: `update` (game.rs lines 353-405) -/

/-- Free-projectile integration and expiry (step 1 of `update`). -/
def integrate_marbles (marbles : List Marble) (dt : ℚ) : List Marble :=
  (marbles.map (fun m =>
    { m with x := m.x + m.vx * dt, y := m.y + m.vy * dt, z := m.z + m.vz * dt,
             life := m.life - dt })).filter
    (fun m => decide (0 < m.life ∧ |m.x| < 200 ∧ -50 < m.y ∧ |m.z| < 200))

/-- The spawn `while` loop (step 2 of `update`).  The extra `0 < interval`
guard only rules out the configuration on which the source loop would
never terminate. -/
def spawnLoop (interval : ℚ) :
    Nat → ℚ → List ChainMarble → Nat → Rng → ℚ × List ChainMarble × Nat × Rng
  | 0, accum, chain, nid, rng => (accum, chain, nid, rng)
  | f + 1, accum, chain, nid, rng =>
    if interval ≤ accum ∧ 0 < interval then
      let cr := random_color_chain rng chain
      spawnLoop interval f (accum - interval) (chain ++ [⟨some nid, 0, some cr.1⟩])
        (nid + 1) cr.2
    else (accum, chain, nid, rng)

def spawnFuel (accum interval : ℚ) : Nat :=
  if 0 < interval then (⌊accum / interval⌋).toNat + 1 else 1

/-- Chain advancement and end-of-path removal (steps 3-4 of `update`):
every chain marble, gap or not, advances by `chain_speed * dt`, then
exactly the entries with `s ≥ 1` are dropped. -/
def advanceAndDrop (chain : List ChainMarble) (speed dt : ℚ) : List ChainMarble :=
  (chain.map (fun cm => { cm with s := cm.s + speed * dt })).filter
    (fun cm => decide (cm.s < 1))

/-- The collision/insertion `while` loop (step 6 of `update`). -/
def collisionLoop (ext : Fext) : Nat → GameState → Nat → GameState
  | 0, gs, _ => gs
  | f + 1, gs, i =>
    if i < gs.marbles.length then
      let m := gs.marbles.getD i default
      match find_collision_index ext gs m with
      | some k =>
        let gs' := insert_into_chain gs m k
        collisionLoop ext f { gs' with marbles := swapRemove gs'.marbles i } i
      | none => collisionLoop ext f gs (i + 1)
    else gs

/-- Steps 1-5 of `update`: integration, spawning, advancement, spacing
equalization and the chain sort, before collision handling. -/
def updatePre (gs : GameState) (dt : ℚ) (rng : Rng) : GameState × Rng :=
  let gs1 := { gs with marbles := integrate_marbles gs.marbles dt }
  let sp := spawnLoop gs1.spawn_interval
    (spawnFuel (gs1.spawn_accum + dt) gs1.spawn_interval)
    (gs1.spawn_accum + dt) gs1.chain gs1.next_marble_id rng
  let gs2 := { gs1 with spawn_accum := sp.1, chain := sp.2.1, next_marble_id := sp.2.2.1 }
  let gs3 := { gs2 with chain := advanceAndDrop gs2.chain gs2.chain_speed dt }
  let gs4 := equalize_chain_spacing gs3
  let gs5 := { gs4 with chain := sortChain gs4.chain }
  (gs5, sp.2.2.2)

/-- `update` of game.rs: the per-tick pipeline. -/
def update (ext : Fext) (gs : GameState) (dt : ℚ) (rng : Rng) : GameState × Rng :=
  let pre := updatePre gs dt rng
  (collisionLoop ext (pre.1.marbles.length + 1) pre.1 0, pre.2)

/-- Claim C6: within a tick, the chain advancement/removal step
(`advanceAndDrop`, steps 3-4 of `update`) bumps every chain marble —
gap or not — by `chain_speed * dt` and keeps exactly those whose new `s`
is strictly below `1` (so `s = 1.0` exactly is removed). -/
theorem C6_chain_advance_and_exit (chain : List ChainMarble) (speed dt : ℚ) :
    ∀ cm' : ChainMarble,
      cm' ∈ advanceAndDrop chain speed dt ↔
      ∃ cm, cm ∈ chain ∧ cm' = { cm with s := cm.s + speed * dt } ∧ cm.s + speed * dt < 1 := by
  intro cm'
  simp only [advanceAndDrop, List.mem_filter, List.mem_map, decide_eq_true_eq]
  constructor
  · rintro ⟨⟨cm, hcm, rfl⟩, hlt⟩
    exact ⟨cm, hcm, rfl, hlt⟩
  · rintro ⟨cm, hcm, rfl, hlt⟩
    exact ⟨⟨cm, hcm, rfl⟩, hlt⟩

/-- A chain with a three-long red run through index 1 and a blue tail. -/
def c4wChain : List ChainMarble :=
  [⟨some 0, 1 / 10, some "red"⟩, ⟨some 1, 2 / 10, some "red"⟩,
   ⟨some 2, 3 / 10, some "red"⟩, ⟨some 3, 4 / 10, some "blue"⟩]

theorem C4_gap_persistence_witness :
    (try_remove_matches c4wChain 1).length = c4wChain.length ∧
    (try_remove_matches c4wChain 1).get? 0 =
      (c4wChain.get? 0).map (fun cm => { cm with id := none, color := none }) ∧
    (try_remove_matches c4wChain 1).get? 3 = c4wChain.get? 3 := by
  have h := C4_gap_persistence c4wChain 1
  have hrun := (h.2.1 "red" (by decide) (by rfl)).1 (by decide)
  exact ⟨h.1, (hrun 0).1 (by decide), (hrun 3).2 (by decide)⟩

/-! ## Claim C1: gap adjacency at capture -/

/-- A state whose only colored chain marble has the gap slot immediately
ahead of it (toward the head). -/
def gapAheadGS : GameState :=
  { emptyGS with chain := [⟨some 0, 1 / 10, some "red"⟩, ⟨none, 1 / 5, none⟩] }

/-- A blue projectile resting exactly on the red marble's world position. -/
def gapAheadMarble : Marble := ⟨42, 1, 0, 0, 0, 0, 0, 5, "blue", none⟩

/-- The chain `insert_into_chain` actually produces in that situation. -/
def gapAheadResult : List ChainMarble :=
  [⟨some 0, 791 / 12500, some "red"⟩, ⟨some 42, 1301 / 12500, some "blue"⟩]

set_option maxHeartbeats 1000000 in
theorem gapAhead_insert_eval :
    insertChain (51 / 125) 10 gapAheadGS.chain gapAheadMarble 0 = gapAheadResult := by
  have ha : sortChain (gapAheadGS.chain ++ [⟨some 42, 1301 / 12500, some "blue"⟩]) =
      [⟨some 0, 1 / 10, some "red"⟩, ⟨some 42, 1301 / 12500, some "blue"⟩,
       ⟨none, 1 / 5, none⟩] := by
    norm_num [sortChain, List.insertionSort, List.orderedInsert, gapAheadGS, emptyGS]
  have hb : bridgeGaps
      [⟨some 0, 1 / 10, some "red"⟩, ⟨some 42, 1301 / 12500, some "blue"⟩,
       ⟨none, 1 / 5, none⟩] 42 =
      [⟨some 0, 1 / 10, some "red"⟩, ⟨some 42, 1301 / 12500, some "blue"⟩,
       ⟨none, 1 / 5, none⟩] := by
    norm_num [bridgeGaps, List.findIdx?, setColor, Option.some_ne_none]
    split <;> rfl
  have hc : equalizeChain 10 (51 / 125)
      [⟨some 0, 1 / 10, some "red"⟩, ⟨some 42, 1301 / 12500, some "blue"⟩,
       ⟨none, 1 / 5, none⟩] =
      [⟨some 0, 791 / 12500, some "red"⟩, ⟨some 42, 1301 / 12500, some "blue"⟩,
       ⟨none, 1 / 5, none⟩] := by
    norm_num [equalizeChain, chainSegments, buildSegsAux, orderIndices, applySeg, setS,
      maxByLast, clampQ, List.insertionSort, List.orderedInsert,
      List.range, List.getD, List.set, List.zip, List.zipWith, Option.some_ne_none]
  have hd : removeIsolatedGaps
      [⟨some 0, 791 / 12500, some "red"⟩, ⟨some 42, 1301 / 12500, some "blue"⟩,
       ⟨none, 1 / 5, none⟩] = gapAheadResult := by
    norm_num [removeIsolatedGaps, rigLoop, gapAheadResult, List.getD, List.eraseIdx,
      Option.some_ne_none]
  have he : List.findIdx? (fun c => c.id == some 42) gapAheadResult = some 1 := by
    norm_num [gapAheadResult, List.findIdx?]
  have hcol : ((gapAheadResult[1]?.getD default).color) = some "blue" := by
    norm_num [gapAheadResult]
  have hscan : scanLeft gapAheadResult "blue" 1 = 1 := by
    norm_num [scanLeft, scanLeftF, gapAheadResult, List.getD,
      show ¬("red" : String) = "blue" from by decide]
  have hg : try_remove_matches gapAheadResult 1 = gapAheadResult := by
    norm_num [try_remove_matches, gapAheadResult, leftRun, rightRun, List.getD,
      List.take, List.drop, List.takeWhile,
      decide_eq_false (show ¬("red" : String) = "blue" from by decide)]
  have hcur : ((gapAheadGS.chain[0]?.getD default).s) = 1 / 10 := by
    norm_num [gapAheadGS, emptyGS]
  have hmax : maxColoredS gapAheadGS.chain = 1 / 10 := by
    norm_num [maxColoredS, maxByLast, gapAheadGS, emptyGS, List.filterMap]
  have hemp : gapAheadGS.chain.isEmpty = false := rfl
  norm_num [insertChain, gapAheadMarble, hemp, hcur, hmax, ha, hb, hc, hd, he, hcol,
    hscan, hg, abs, min_def, max_def]

set_option maxHeartbeats 1000000 in
theorem gapAhead_find_eval :
    find_collision_index extId gapAheadGS gapAheadMarble = some 0 := by
  norm_num [find_collision_index, gapAheadGS, emptyGS, gapAheadMarble, extId,
    chain_world_pos, clampQ, sampIdx, binSearch, bsLoop, List.enum, List.enumFrom,
    List.getD, List.getLastD]

set_option maxHeartbeats 1000000 in
/-- Claim C1, counterexample: the candidate selected by
`find_collision_index` has the slot immediately ahead of it (the
next-higher-`s` entry) a gap, yet the shot is not treated as a miss —
`insert_into_chain` inserts the projectile (its id and color appear in
the chain) and the chain changes. -/
theorem C1_gap_adjacency_counterexample :
    find_collision_index extId gapAheadGS gapAheadMarble = some 0 ∧
    (gapAheadGS.chain.getD (0 + 1) default).color = none ∧
    (insert_into_chain gapAheadGS gapAheadMarble 0).chain ≠ gapAheadGS.chain ∧
    ∃ cm ∈ (insert_into_chain gapAheadGS gapAheadMarble 0).chain,
      cm.id = some gapAheadMarble.id ∧ cm.color = some gapAheadMarble.color := by
  have hchain : (insert_into_chain gapAheadGS gapAheadMarble 0).chain = gapAheadResult := by
    have hwrap : (insert_into_chain gapAheadGS gapAheadMarble 0).chain =
        insertChain (51 / 125) 10 gapAheadGS.chain gapAheadMarble 0 := rfl
    rw [hwrap, gapAhead_insert_eval]
  refine ⟨gapAhead_find_eval, rfl, ?_, ?_⟩
  · rw [hchain]
    norm_num [gapAheadResult, gapAheadGS, emptyGS]
  · rw [hchain]
    exact ⟨⟨some 42, 1301 / 12500, some "blue"⟩, by norm_num [gapAheadResult], rfl, rfl⟩

/-! ## Claim C2: the chain stays sorted across a tick -/

/-- A sorted chain with a gap tightly followed by a two-marble head
cluster, and a projectile about to hit the head. -/
def sortedCexGS : GameState :=
  { emptyGS with
      chain := [⟨some 0, 2 / 5, some "red"⟩, ⟨none, 97 / 200, none⟩,
        ⟨some 1, 49 / 100, some "green"⟩],
      marbles := [⟨42, 49 / 10, 0, 0, 0, 0, 0, 5, "blue", none⟩] }

def sortedCexMarble : Marble := ⟨42, 49 / 10, 0, 0, 0, 0, 0, 5, "blue", none⟩

def sortedCexChain : List ChainMarble :=
  [⟨some 0, 2 / 5, some "red"⟩, ⟨none, 97 / 200, none⟩, ⟨some 1, 49 / 100, some "green"⟩]

def sortedCexIns1 : List ChainMarble :=
  [⟨some 0, 2 / 5, some "red"⟩, ⟨none, 97 / 200, none⟩, ⟨some 1, 49 / 100, some "green"⟩,
   ⟨some 42, 1544 / 3125, some "blue"⟩]

/-- After the capture's trailing equalization the green marble sits at
`s = 2833/6250 < 97/200`: behind the gap that precedes it in the vector. -/
def sortedCexIns2 : List ChainMarble :=
  [⟨some 0, 2 / 5, some "red"⟩, ⟨none, 97 / 200, none⟩,
   ⟨some 1, 2833 / 6250, some "green"⟩, ⟨some 42, 1544 / 3125, some "blue"⟩]

set_option maxHeartbeats 1000000 in
theorem sortedCex_insert_eval :
    insertChain (51 / 125) 10 sortedCexChain sortedCexMarble 2 = sortedCexIns2 := by
  have ha : sortChain (sortedCexChain ++ [⟨some 42, 1544 / 3125, some "blue"⟩]) =
      sortedCexIns1 := by
    norm_num [sortChain, List.insertionSort, List.orderedInsert, sortedCexChain,
      sortedCexIns1]
  have hb : bridgeGaps sortedCexIns1 42 = sortedCexIns1 := by
    norm_num [bridgeGaps, sortedCexIns1, List.findIdx?, setColor, Option.some_ne_none,
      show ¬("green" : String) = "blue" from by decide]
    split <;> rfl
  have hc : equalizeChain 10 (51 / 125) sortedCexIns1 = sortedCexIns2 := by
    norm_num [equalizeChain, chainSegments, buildSegsAux, orderIndices, applySeg, setS,
      maxByLast, clampQ, List.insertionSort, List.orderedInsert, sortedCexIns1,
      sortedCexIns2, List.range, List.getD, List.set, List.zip, List.zipWith,
      Option.some_ne_none]
  have hd : removeIsolatedGaps sortedCexIns2 = sortedCexIns2 := by
    norm_num [removeIsolatedGaps, rigLoop, sortedCexIns2, List.getD, List.eraseIdx,
      Option.some_ne_none]
  have he : List.findIdx? (fun c => c.id == some 42) sortedCexIns2 = some 3 := by
    norm_num [sortedCexIns2, List.findIdx?]
  have hcol : ((sortedCexIns2[3]?.getD default).color) = some "blue" := by
    norm_num [sortedCexIns2]
  have hscan : scanLeft sortedCexIns2 "blue" 3 = 3 := by
    norm_num [scanLeft, scanLeftF, sortedCexIns2, List.getD,
      show ¬("green" : String) = "blue" from by decide]
  have hg : try_remove_matches sortedCexIns2 3 = sortedCexIns2 := by
    norm_num [try_remove_matches, sortedCexIns2, leftRun, rightRun, List.getD, List.take,
      List.drop, List.takeWhile,
      decide_eq_false (show ¬("green" : String) = "blue" from by decide)]
  have hcur : ((sortedCexChain[2]?.getD default).s) = 49 / 100 := by
    norm_num [sortedCexChain]
  have hmax : maxColoredS sortedCexChain = 49 / 100 := by
    norm_num [maxColoredS, maxByLast, sortedCexChain, List.filterMap]
  have hemp : sortedCexChain.isEmpty = false := rfl
  norm_num [insertChain, sortedCexMarble, hemp, hcur, hmax, ha, hb, hc, hd, he, hcol,
    hscan, hg, abs, min_def, max_def]

set_option maxHeartbeats 1000000 in
theorem sortedCex_update_eval :
    (update extId sortedCexGS 0 ⟨[], []⟩).1.chain = sortedCexIns2 := by
  have h1 : updatePre sortedCexGS 0 ⟨[], []⟩ = (sortedCexGS, ⟨[], []⟩) := by
    norm_num [Option.some_ne_none,
      updatePre, integrate_marbles, spawnLoop, spawnFuel, advanceAndDrop,
      sortedCexGS, emptyGS, maxByLast, sortChain,
      List.insertionSort, List.orderedInsert,
      equalize_chain_spacing, equalizeChain, chainSegments, buildSegsAux, orderIndices,
      applySeg, setS, clampQ, List.range, List.getD, List.set, List.zip, List.zipWith,
      List.filterMap, abs_lt]
  have h2 : find_collision_index extId sortedCexGS sortedCexMarble = some 2 := by
    norm_num [find_collision_index, sortedCexGS, emptyGS, sortedCexMarble, extId,
      chain_world_pos, clampQ, sampIdx, binSearch, bsLoop, List.enum, List.enumFrom,
      List.getD, List.getLastD]
  have hlen : sortedCexGS.marbles.length = 1 := rfl
  have hgetm : (sortedCexGS.marbles[0]?.getD default) = sortedCexMarble := rfl
  have hsp : sortedCexGS.spacing_length = 51 / 125 := rfl
  have ht : sortedCexGS.total_length = 10 := rfl
  have hch : sortedCexGS.chain = sortedCexChain := rfl
  have hmarbles : sortedCexGS.marbles = [sortedCexMarble] := rfl
  norm_num [update, h1, collisionLoop, hlen, hgetm, h2, insert_into_chain, hsp, ht, hch,
    sortedCex_insert_eval, hmarbles, swapRemove, List.dropLast, List.set, List.getD]

/-- Claim C2, counterexample: a game state whose chain is in ascending `s`
order for which `update(0)` ends with a chain that is no longer sorted —
the capture's trailing spacing equalization pushes the green run member
behind the gap that precedes it. -/
theorem C2_sorted_counterexample :
    List.Pairwise (fun a b : ChainMarble => a.s ≤ b.s) sortedCexGS.chain ∧
    ¬ List.Pairwise (fun a b : ChainMarble => a.s ≤ b.s)
      ((update extId sortedCexGS 0 ⟨[], []⟩).1.chain) := by
  constructor
  · norm_num [sortedCexGS, emptyGS]
  · rw [sortedCex_update_eval]
    norm_num [sortedCexIns2]

/-! ### Structural lemmas about the insertion pipeline -/

theorem findIdx?_spec {α : Type _} [Inhabited α] (p : α → Bool) (l : List α) (t : Nat)
    (h : l.findIdx? p = some t) :
    t < l.length ∧ p (l.getD t default) = true ∧ ∀ j, j < t → p (l.getD j default) = false := by
  induction l generalizing t with
  | nil => simp [List.findIdx?] at h
  | cons a l ih =>
    rw [List.findIdx?_cons] at h
    by_cases hpa : p a
    · simp only [hpa, if_true] at h
      cases h
      exact ⟨by simp, by simpa using hpa, fun j hj => absurd hj (Nat.not_lt_zero j)⟩
    · simp only [hpa, if_false] at h
      rw [List.findIdx?_succ] at h
      rcases hmap : l.findIdx? p with _ | t'
      · rw [hmap] at h; simp at h
      · rw [hmap] at h
        simp only [Option.map_some'] at h
        cases h
        obtain ⟨h1, h2, h3⟩ := ih t' hmap
        refine ⟨by simp only [List.length_cons]; omega, by simpa using h2, ?_⟩
        intro j hj
        cases j with
        | zero => simpa using hpa
        | succ j => simpa using h3 j (by omega)

theorem findIdx?_eq_none_forall {α : Type _} (p : α → Bool) (l : List α)
    (h : l.findIdx? p = none) : ∀ x ∈ l, p x = false := by
  induction l with
  | nil => intro x hx; simp at hx
  | cons a l ih =>
    rw [List.findIdx?_cons] at h
    by_cases hpa : p a
    · simp [hpa] at h
    · simp only [hpa, if_false, List.findIdx?_succ] at h
      intro x hx
      rcases List.mem_cons.mp hx with rfl | hx
      · simpa using hpa
      · rcases hmap : l.findIdx? p with _ | t'
        · exact ih hmap x hx
        · rw [hmap] at h; simp at h

theorem countP_two_positions {α : Type _} [Inhabited α] (p : α → Bool) (l : List α)
    (i j : Nat) (hij : i < j) (hj : j < l.length)
    (hi : p (l.getD i default) = true) (hjp : p (l.getD j default) = true) :
    2 ≤ l.countP p := by
  induction l generalizing i j with
  | nil => simp at hj
  | cons a l ih =>
    rw [List.countP_cons]
    cases i with
    | zero =>
      have hpa : p a = true := by simpa using hi
      cases j with
      | zero => omega
      | succ j =>
        have hj' : j < l.length := by simpa using hj
        have hjp' : p (l.getD j default) = true := by simpa using hjp
        have hone : 0 < l.countP p := by
          refine List.countP_pos_iff.mpr ⟨l.getD j default, ?_, hjp'⟩
          rw [List.getD_eq_getElem _ _ hj']
          exact List.getElem_mem hj'
        simp only [hpa, if_true]
        omega
    | succ i =>
      cases j with
      | zero => omega
      | succ j =>
        have := ih i j (by omega) (by simpa using hj) (by simpa using hi) (by simpa using hjp)
        omega

theorem set_getD_self {α : Type _} [Inhabited α] (l : List α) (i : Nat) :
    l.set i (l.getD i default) = l := by
  induction l generalizing i with
  | nil => rfl
  | cons a l ih =>
    cases i with
    | zero => simp
    | succ i =>
      simp only [List.getD_cons_succ, List.set]
      rw [ih]

/-- `setS` leaves the id/color projection of the chain unchanged. -/
theorem setS_idColor (l : List ChainMarble) (i : Nat) (v : ℚ) :
    (setS l i v).map (fun cm => (cm.id, cm.color)) = l.map (fun cm => (cm.id, cm.color)) := by
  unfold setS
  rcases h : l.get? i with _ | cm
  · rfl
  · rw [List.get?_eq_getElem?] at h
    have hlt : i < l.length := by
      by_contra hge
      rw [List.getElem?_eq_none (by omega)] at h
      exact Option.noConfusion h
    rw [List.map_set]
    have hcm : l[i] = cm := by
      have h2 := List.getElem?_eq_getElem hlt
      rw [h2] at h
      exact Option.some.inj h
    have hval : ({ cm with s := v }.id, { cm with s := v }.color) =
        (l.map (fun cm => (cm.id, cm.color))).getD i default := by
      rw [List.getD_eq_getElem _ _ (by simpa using hlt), List.getElem_map, hcm]
    rw [hval, set_getD_self]

theorem foldl_setS_idColor (g : Nat × ℚ → ℚ) (pairs : List (Nat × ℚ)) :
    ∀ chain : List ChainMarble,
      ((pairs.foldl (fun ch p => setS ch p.1 (g p)) chain).map
        (fun cm => (cm.id, cm.color))) = chain.map (fun cm => (cm.id, cm.color)) := by
  induction pairs with
  | nil => intro chain; rfl
  | cons q qs ih =>
    intro chain
    rw [List.foldl_cons, ih (setS chain q.1 (g q)), setS_idColor]

/-- `applySeg` leaves the id/color projection unchanged. -/
theorem applySeg_idColor (T spacing : ℚ) (chain : List ChainMarble) (seg : List Nat) :
    (applySeg T spacing chain seg).map (fun cm => (cm.id, cm.color)) =
      chain.map (fun cm => (cm.id, cm.color)) := by
  unfold applySeg
  by_cases h : (seg.map (fun i => (chain.getD i default).s)).isEmpty
  · rw [if_pos h]
  · rw [if_neg h]
    exact foldl_setS_idColor (fun p => if 0 < T then clampQ (p.2 / T) 0 1 else 0) _ chain

theorem foldl_applySeg_idColor (T sp : ℚ) (segs : List (List Nat)) :
    ∀ l : List ChainMarble,
      ((segs.foldl (applySeg T sp) l).map (fun cm => (cm.id, cm.color))) =
        l.map (fun cm => (cm.id, cm.color)) := by
  induction segs with
  | nil => intro l; rfl
  | cons seg segs ih =>
    intro l
    rw [List.foldl_cons, ih (applySeg T sp l seg), applySeg_idColor]

/-- `equalizeChain` leaves the id/color projection unchanged. -/
theorem equalizeChain_idColor (T sp : ℚ) (l : List ChainMarble) :
    (equalizeChain T sp l).map (fun cm => (cm.id, cm.color)) =
      l.map (fun cm => (cm.id, cm.color)) := by
  unfold equalizeChain
  by_cases h : l.isEmpty ∨ T ≤ 0
  · rw [if_pos h]
  · rw [if_neg h]
    exact foldl_applySeg_idColor T (max sp (1 / 1000)) (chainSegments l) l

theorem mem_eraseIdx_of_ne {α : Type _} (l : List α) (i : Nat) (x y : α)
    (hy : l.get? i = some y) (hx : x ∈ l) (hne : x ≠ y) : x ∈ l.eraseIdx i := by
  induction l generalizing i with
  | nil => simp at hx
  | cons a l ih =>
    cases i with
    | zero =>
      simp only [List.get?] at hy
      cases hy
      rcases List.mem_cons.mp hx with rfl | hx
      · exact absurd rfl hne
      · simpa [List.eraseIdx] using hx
    | succ i =>
      simp only [List.get?] at hy
      rcases List.mem_cons.mp hx with rfl | hx
      · simp [List.eraseIdx]
      · simp only [List.eraseIdx, List.mem_cons]
        exact Or.inr (ih i hy hx)

theorem rigLoop_sublist : ∀ (f : Nat) (ch : List ChainMarble) (i : Nat),
    (rigLoop f ch i).Sublist ch := by
  intro f
  induction f with
  | zero => intro ch i; exact List.Sublist.refl ch
  | succ f ih =>
    intro ch i
    unfold rigLoop
    by_cases h1 : i < ch.length
    · simp only [if_pos h1]
      by_cases h2 : (ch.getD i default).color = none
      · simp only [h2, if_true]
        by_cases h3 : (0 < i ∧ (ch.getD (i - 1) default).color.isSome) ∧
            (i + 1 < ch.length ∧ (ch.getD (i + 1) default).color.isSome)
        · simp only [if_pos h3]
          exact ih ch (i + 1)
        · simp only [if_neg h3]
          exact (ih (ch.eraseIdx i) i).trans (List.eraseIdx_sublist ch i)
      · simp only [h2, if_false]
        exact ih ch (i + 1)
    · simp only [if_neg h1]
      exact List.Sublist.refl ch

theorem rigLoop_mem_colored : ∀ (f : Nat) (ch : List ChainMarble) (i : Nat)
    (x : ChainMarble), x ∈ ch → x.color ≠ none → x ∈ rigLoop f ch i := by
  intro f
  induction f with
  | zero => intro ch i x hx _; exact hx
  | succ f ih =>
    intro ch i x hx hcol
    unfold rigLoop
    by_cases h1 : i < ch.length
    · simp only [if_pos h1]
      by_cases h2 : (ch.getD i default).color = none
      · simp only [h2, if_true]
        by_cases h3 : (0 < i ∧ (ch.getD (i - 1) default).color.isSome) ∧
            (i + 1 < ch.length ∧ (ch.getD (i + 1) default).color.isSome)
        · simp only [if_pos h3]
          exact ih ch (i + 1) x hx hcol
        · simp only [if_neg h3]
          refine ih (ch.eraseIdx i) i x ?_ hcol
          refine mem_eraseIdx_of_ne ch i x (ch.getD i default) ?_ hx ?_
          · rw [List.get?_eq_getElem?, List.getElem?_eq_getElem h1,
              List.getD_eq_getElem _ _ h1]
          · intro hxy
            rw [hxy] at hcol
            exact hcol h2
      · simp only [h2, if_false]
        exact ih ch (i + 1) x hx hcol
    · simp only [if_neg h1]
      exact hx

/-- Every position inside the left run counted by `leftRun` carries the
run's color. -/
theorem leftRun_color (l : List ChainMarble) (c : String) (j : Nat) (hj : j ≤ l.length) :
    ∀ i, j - leftRun l c j ≤ i → i < j → (l.getD i default).color = some c := by
  intro i hi1 hi2
  set tw := (l.take j).reverse.takeWhile (fun cm => decide (cm.color = some c)) with htw
  have hlen : leftRun l c j = tw.length := rfl
  set p := j - 1 - i with hp
  have hplt : p < tw.length := by
    have := leftRun_le l c j hj
    rw [hlen] at this hi1
    omega
  have hrevlen : (l.take j).reverse.length = j := by
    simp [List.length_reverse, List.length_take]
    omega
  have hb1 : p < (l.take j).reverse.length := by omega
  have hb2 : j - 1 - p < (l.take j).length := by
    simp only [List.length_take]
    omega
  have hb3 : j - 1 - p < l.length := by omega
  have hptw : tw[p] = (l.take j).reverse[p] :=
    (List.takeWhile_prefix _).getElem hplt
  have hrev : (l.take j).reverse[p] = (l.take j)[j - 1 - p] := by
    rw [List.getElem_reverse]
    congr 1
    simp only [List.length_take]
    omega
  have htake : (l.take j)[j - 1 - p] = l[j - 1 - p] := List.getElem_take l
  have hpred := List.mem_takeWhile_imp (List.getElem_mem hplt)
  rw [hptw, hrev, htake] at hpred
  have hpred2 : (l.getD (j - 1 - p) default).color = some c := by
    rw [List.getD_eq_getElem _ _ (by omega)]
    simpa using hpred
  have hip : j - 1 - p = i := by omega
  rwa [hip] at hpred2

/-- Every position inside the right run counted by `rightRun` carries the
run's color. -/
theorem rightRun_color (l : List ChainMarble) (c : String) (j : Nat) :
    ∀ i, j < i → i ≤ j + rightRun l c j → (l.getD i default).color = some c := by
  intro i hi1 hi2
  set tw := (l.drop (j + 1)).takeWhile (fun cm => decide (cm.color = some c)) with htw
  have hlen : rightRun l c j = tw.length := rfl
  set p := i - (j + 1) with hp
  have hplt : p < tw.length := by
    rw [hlen] at hi2
    omega
  have hdroplen : tw.length ≤ (l.drop (j + 1)).length :=
    (List.takeWhile_prefix _).sublist.length_le
  have hb1 : p < (l.drop (j + 1)).length := by omega
  have hilen : i < l.length := by
    have : (l.drop (j + 1)).length = l.length - (j + 1) := List.length_drop _ _
    omega
  have hb2 : j + 1 + p < l.length := by
    have : (l.drop (j + 1)).length = l.length - (j + 1) := List.length_drop _ _
    omega
  have hptw : tw[p] = (l.drop (j + 1))[p] :=
    (List.takeWhile_prefix _).getElem hplt
  have hdrop : (l.drop (j + 1))[p] = l[j + 1 + p] := List.getElem_drop l
  have hpred := List.mem_takeWhile_imp (List.getElem_mem hplt)
  rw [hptw, hdrop] at hpred
  have hpred2 : (l.getD (j + 1 + p) default).color = some c := by
    rw [List.getD_eq_getElem _ _ (by omega)]
    simpa using hpred
  have hip : j + 1 + p = i := by omega
  rwa [hip] at hpred2

/-- Invariant carried through the insertion pipeline: the chain holds an
entry with the inserted marble's id and color, entries with that id have
that color and vice versa, and at most one entry carries the id. -/
def InsInv (mid : Nat) (mc : String) (l : List ChainMarble) : Prop :=
  (∃ cm ∈ l, cm.id = some mid ∧ cm.color = some mc) ∧
  (∀ cm ∈ l, cm.id = some mid → cm.color = some mc) ∧
  (∀ cm ∈ l, cm.color = some mc → cm.id = some mid) ∧
  l.countP (fun cm => cm.id == some mid) ≤ 1

theorem InsInv_append (mid : Nat) (mc : String) (chain : List ChainMarble) (s : ℚ)
    (hfc : ∀ cm ∈ chain, cm.color ≠ some mc) (hfi : ∀ cm ∈ chain, cm.id ≠ some mid) :
    InsInv mid mc (chain ++ [⟨some mid, s, some mc⟩]) := by
  refine ⟨⟨⟨some mid, s, some mc⟩, by simp, rfl, rfl⟩, ?_, ?_, ?_⟩
  · intro cm hcm hid
    rcases List.mem_append.mp hcm with h | h
    · exact absurd hid (hfi cm h)
    · simp only [List.mem_singleton] at h
      rw [h]
  · intro cm hcm hcol
    rcases List.mem_append.mp hcm with h | h
    · exact absurd hcol (hfc cm h)
    · simp only [List.mem_singleton] at h
      rw [h]
  · rw [List.countP_append]
    have h0 : chain.countP (fun cm => cm.id == some mid) = 0 := by
      rw [List.countP_eq_zero]
      intro cm hcm
      simp only [beq_iff_eq]
      exact hfi cm hcm
    simp [h0, List.countP_cons]

theorem InsInv_perm (mid : Nat) (mc : String) {l l' : List ChainMarble}
    (hperm : l'.Perm l) (hinv : InsInv mid mc l) : InsInv mid mc l' := by
  obtain ⟨⟨cm, hcm, h1, h2⟩, hic, hci, hcnt⟩ := hinv
  exact ⟨⟨cm, hperm.mem_iff.mpr hcm, h1, h2⟩,
    fun cm hcm => hic cm (hperm.mem_iff.mp hcm),
    fun cm hcm => hci cm (hperm.mem_iff.mp hcm),
    by rw [hperm.countP_eq]; exact hcnt⟩

theorem InsInv_idColorMap (mid : Nat) (mc : String) {l l' : List ChainMarble}
    (hmap : l'.map (fun cm => (cm.id, cm.color)) = l.map (fun cm => (cm.id, cm.color)))
    (hinv : InsInv mid mc l) : InsInv mid mc l' := by
  obtain ⟨⟨cm, hcm, h1, h2⟩, hic, hci, hcnt⟩ := hinv
  have hlen : l'.length = l.length := by
    have := congrArg List.length hmap
    simpa using this
  have hpt : ∀ i (h : i < l.length) (h' : i < l'.length),
      l'[i].id = l[i].id ∧ l'[i].color = l[i].color := by
    intro i h h'
    have := congrArg (fun t => t.getD i default) hmap
    simp only [List.getD_eq_getElem?_getD, List.getElem?_eq_getElem (by simpa using h : i < (l.map (fun cm => (cm.id, cm.color))).length)] at this
    rw [List.getElem?_eq_getElem
      (by simpa [hlen] using h : i < (l'.map (fun cm => (cm.id, cm.color))).length)] at this
    simp only [List.getElem_map, Option.getD_some] at this
    exact ⟨congrArg Prod.fst this, congrArg Prod.snd this⟩
  refine ⟨?_, ?_, ?_, ?_⟩
  · obtain ⟨i, hi, hig⟩ := List.mem_iff_getElem.mp hcm
    have hi' : i < l'.length := by omega
    obtain ⟨ha, hb⟩ := hpt i hi hi'
    exact ⟨l'[i], List.getElem_mem _, by rw [ha, hig]; exact h1,
      by rw [hb, hig]; exact h2⟩
  · intro cm' hcm' hid
    obtain ⟨i, hi, hig⟩ := List.mem_iff_getElem.mp hcm'
    have hil : i < l.length := by omega
    obtain ⟨ha, hb⟩ := hpt i hil hi
    rw [← hig, hb]
    refine hic l[i] (List.getElem_mem _) ?_
    rw [← ha, hig]
    exact hid
  · intro cm' hcm' hcol
    obtain ⟨i, hi, hig⟩ := List.mem_iff_getElem.mp hcm'
    have hil : i < l.length := by omega
    obtain ⟨ha, hb⟩ := hpt i hil hi
    rw [← hig, ha]
    refine hci l[i] (List.getElem_mem _) ?_
    rw [← hb, hig]
    exact hcol
  · have hcnt' : l'.countP (fun cm => cm.id == some mid) =
        l.countP (fun cm => cm.id == some mid) := by
      have h1' := List.countP_map (fun pr : Option Nat × Option String => pr.1 == some mid)
        (fun cm => (cm.id, cm.color)) (l := l')
      have h2' := List.countP_map (fun pr : Option Nat × Option String => pr.1 == some mid)
        (fun cm => (cm.id, cm.color)) (l := l)
      rw [hmap] at h1'
      have heq : ((fun pr : Option Nat × Option String => pr.1 == some mid) ∘
          fun cm : ChainMarble => (cm.id, cm.color)) =
          (fun cm : ChainMarble => cm.id == some mid) := rfl
      rw [heq] at h1' h2'
      rw [← h1', ← h2']
    rw [hcnt']
    exact hcnt

theorem InsInv_removeIsolatedGaps (mid : Nat) (mc : String) (l : List ChainMarble)
    (hinv : InsInv mid mc l) : InsInv mid mc (removeIsolatedGaps l) := by
  obtain ⟨⟨cm, hcm, h1, h2⟩, hic, hci, hcnt⟩ := hinv
  have hsub : (removeIsolatedGaps l).Sublist l := rigLoop_sublist _ _ _
  refine ⟨⟨cm, ?_, h1, h2⟩, fun x hx => hic x (hsub.subset hx),
    fun x hx => hci x (hsub.subset hx),
    le_trans (hsub.countP_le _) hcnt⟩
  exact rigLoop_mem_colored _ _ _ cm hcm (by rw [h2]; exact Option.some_ne_none mc)

theorem bridgeGaps_of_InsInv (mid : Nat) (mc : String) (l : List ChainMarble)
    (hinv : InsInv mid mc l) : bridgeGaps l mid = l := by
  obtain ⟨⟨cm, hcm, h1, h2⟩, hic, hci, hcnt⟩ := hinv
  unfold bridgeGaps
  rcases hfind : l.findIdx? (fun c => c.id == some mid) with _ | t
  · simp only [hfind]
  · simp only [hfind]
    obtain ⟨htlt, htp, _⟩ := findIdx?_spec _ _ _ hfind
    have htid : (l.getD t default).id = some mid := by
      rw [← beq_iff_eq]
      exact htp
    have htmem : l.getD t default ∈ l := by
      rw [List.getD_eq_getElem _ _ htlt]
      exact List.getElem_mem htlt
    have htcol : (l.getD t default).color = some mc := hic _ htmem htid
    simp only [htcol]
    have hcond1 : ¬(0 < t ∧ (l.getD (t - 1) default).color = none ∧ 2 ≤ t ∧
        (l.getD (t - 2) default).color = some mc) := by
      rintro ⟨ht0, _, ht2, hcol2⟩
      have hmem2 : l.getD (t - 2) default ∈ l := by
        rw [List.getD_eq_getElem _ _ (by omega)]
        exact List.getElem_mem (by omega)
      have hid2 : (l.getD (t - 2) default).id = some mid := hci _ hmem2 hcol2
      have := countP_two_positions (fun cm => cm.id == some mid) l (t - 2) t (by omega)
        htlt (by rw [beq_iff_eq]; exact hid2) htp
      omega
    rw [if_neg hcond1]
    have hcond2 : ¬(t + 1 < l.length ∧ (l.getD (t + 1) default).color = none ∧
        t + 2 < l.length ∧ (l.getD (t + 2) default).color = some mc) := by
      rintro ⟨_, _, hlen2, hcol2⟩
      have hmem2 : l.getD (t + 2) default ∈ l := by
        rw [List.getD_eq_getElem _ _ hlen2]
        exact List.getElem_mem hlen2
      have hid2 : (l.getD (t + 2) default).id = some mid := hci _ hmem2 hcol2
      have := countP_two_positions (fun cm => cm.id == some mid) l t (t + 2) (by omega)
        hlen2 htp (by rw [beq_iff_eq]; exact hid2)
      omega
    rw [if_neg hcond2]

theorem trm_preserves_ours (mid : Nat) (mc : String) (l : List ChainMarble) (j : Nat)
    (hinv : InsInv mid mc l) :
    ∃ cm ∈ try_remove_matches l j, cm.id = some mid ∧ cm.color = some mc := by
  obtain ⟨⟨cm, hcm, h1, h2⟩, hic, hci, hcnt⟩ := hinv
  have C4 := trm_spec l j
  by_cases hguard : l.length ≤ j ∨ (l.getD j default).color = none
  · rw [C4.2.2 hguard]
    exact ⟨cm, hcm, h1, h2⟩
  · push_neg at hguard
    obtain ⟨hjlt', hjcol⟩ := hguard
    have hjlt : j < l.length := by omega
    rcases hc : (l.getD j default).color with _ | c
    · exact absurd hc hjcol
    by_cases h3 : 3 ≤ 1 + leftRun l c j + rightRun l c j
    · -- a run of length ≥ 3 through j is cleared
      have hjmem : l.getD j default ∈ l := by
        rw [List.getD_eq_getElem _ _ hjlt]
        exact List.getElem_mem hjlt
      by_cases hcmc : c = mc
      · -- impossible: the inserted color is unique, so the run has length 1
        subst hcmc
        have hjid : (l.getD j default).id = some mid := hci _ hjmem hc
        have hleft0 : leftRun l c j = 0 := by
          by_contra hne
          have h0j : 0 < j := by
            rcases Nat.eq_zero_or_pos j with rfl | h
            · unfold leftRun at hne
              simp at hne
            · exact h
          have hl : (l.getD (j - 1) default).color = some c :=
            leftRun_color l c j (by omega) (j - 1)
              (by have := leftRun_le l c j (by omega); omega) (by omega)
          have hlid : (l.getD (j - 1) default).id = some mid := by
            refine hci _ ?_ hl
            rw [List.getD_eq_getElem _ _ (by omega)]
            exact List.getElem_mem (by omega)
          have := countP_two_positions (fun cm => cm.id == some mid) l (j - 1) j
            (by omega) hjlt (by rw [beq_iff_eq]; exact hlid)
            (by rw [beq_iff_eq]; exact hjid)
          omega
        have hright0 : rightRun l c j = 0 := by
          by_contra hne
          have hr : (l.getD (j + 1) default).color = some c :=
            rightRun_color l c j (j + 1) (by omega) (by omega)
          have hj1 : j + 1 < l.length := by
            have := rightRun_le l c j
            omega
          have hrid : (l.getD (j + 1) default).id = some mid := by
            refine hci _ ?_ hr
            rw [List.getD_eq_getElem _ _ hj1]
            exact List.getElem_mem hj1
          have := countP_two_positions (fun cm => cm.id == some mid) l j (j + 1)
            (by omega) hj1 (by rw [beq_iff_eq]; exact hjid)
            (by rw [beq_iff_eq]; exact hrid)
          omega
        omega
      · -- the cleared run has a different color: our entry lies outside it
        obtain ⟨iq, hiq, hiqeq⟩ := List.mem_iff_getElem.mp hcm
        have hiqget : l.getD iq default = cm := by
          rw [List.getD_eq_getElem _ _ hiq, hiqeq]
        have hout : ¬(j - leftRun l c j ≤ iq ∧ iq ≤ j + rightRun l c j) := by
          rintro ⟨hin1, hin2⟩
          rcases Nat.lt_trichotomy iq j with hlt | rfl | hgt
          · have := leftRun_color l c j (by omega) iq hin1 hlt
            rw [hiqget, h2] at this
            exact hcmc (Option.some.inj this).symm
          · rw [hiqget, h2] at hc
            exact hcmc (Option.some.inj hc).symm
          · have := rightRun_color l c j iq hgt hin2
            rw [hiqget, h2] at this
            exact hcmc (Option.some.inj this).symm
        have hpt := ((C4.2.1 c hjlt hc).1 h3 iq).2 hout
        refine ⟨cm, ?_, h1, h2⟩
        refine List.get?_mem (n := iq) ?_
        rw [hpt, List.get?_eq_getElem?, List.getElem?_eq_getElem hiq, hiqeq]
    · rw [((C4.2.1 c hjlt hc).2 (by omega))]
      exact ⟨cm, hcm, h1, h2⟩

theorem insert_pipeline_preserves (sp T s₀ : ℚ) (chain : List ChainMarble) (mid : Nat)
    (mc : String) (hfc : ∀ cm ∈ chain, cm.color ≠ some mc)
    (hfi : ∀ cm ∈ chain, cm.id ≠ some mid) :
    ∃ cm ∈ (let chain3 := removeIsolatedGaps (equalizeChain T sp
        (bridgeGaps (sortChain (chain ++ [⟨some mid, s₀, some mc⟩])) mid));
      match chain3.findIdx? (fun c => c.id == some mid) with
      | none => chain3
      | some final_idx =>
        match (chain3.getD final_idx default).color with
        | none => chain3
        | some color => try_remove_matches chain3 (scanLeft chain3 color final_idx)),
      cm.id = some mid ∧ cm.color = some mc := by
  have hinv0 := InsInv_append mid mc chain s₀ hfc hfi
  have hinv1 : InsInv mid mc (sortChain (chain ++ [⟨some mid, s₀, some mc⟩])) :=
    InsInv_perm mid mc
      (List.perm_insertionSort (fun a b : ChainMarble => a.s ≤ b.s) _) hinv0
  have hbre : bridgeGaps (sortChain (chain ++ [⟨some mid, s₀, some mc⟩])) mid =
      sortChain (chain ++ [⟨some mid, s₀, some mc⟩]) :=
    bridgeGaps_of_InsInv _ _ _ hinv1
  simp only [hbre]
  have hinv3 := InsInv_idColorMap mid mc (equalizeChain_idColor T sp
    (sortChain (chain ++ [⟨some mid, s₀, some mc⟩]))) hinv1
  have hinv4 := InsInv_removeIsolatedGaps mid mc _ hinv3
  set C3 := removeIsolatedGaps (equalizeChain T sp
    (sortChain (chain ++ [⟨some mid, s₀, some mc⟩]))) with hC3
  rcases hf : C3.findIdx? (fun c => c.id == some mid) with _ | t
  · simp only [hf]
    exact hinv4.1
  · simp only [hf]
    obtain ⟨hlt, hp, _⟩ := findIdx?_spec _ _ _ hf
    have hid : (C3.getD t default).id = some mid := by
      rw [← beq_iff_eq]
      exact hp
    have hcol : (C3.getD t default).color = some mc := by
      refine hinv4.2.1 _ ?_ hid
      rw [List.getD_eq_getElem _ _ hlt]
      exact List.getElem_mem hlt
    simp only [hcol]
    exact trm_preserves_ours mid mc C3 _ hinv4

set_option maxHeartbeats 1000000 in
/-- Claim C1 (amended): when `find_collision_index` selects a candidate
whose slot immediately ahead (next-higher `s`) is a gap, the shot is NOT
treated as a miss — `insert_into_chain` inserts the projectile exactly as
for any other candidate.  (Stated with the projectile's id and color
fresh to the chain, so that match resolution cannot immediately clear the
inserted marble; gap adjacency is computed by the source only for
logging and never causes a rejection.) -/
theorem C1_gap_adjacency_amended (ext : Fext) (gs : GameState) (m : Marble) (k : Nat)
    (_hfind : find_collision_index ext gs m = some k)
    (_hgap : (gs.chain.getD (k + 1) default).color = none)
    (hfc : ∀ cm ∈ gs.chain, cm.color ≠ some m.color)
    (hfi : ∀ cm ∈ gs.chain, cm.id ≠ some m.id) :
    ∃ cm ∈ (insert_into_chain gs m k).chain,
      cm.id = some m.id ∧ cm.color = some m.color := by
  have hwrap : (insert_into_chain gs m k).chain =
      insertChain gs.spacing_length gs.total_length gs.chain m k := rfl
  rw [hwrap]
  simp only [insertChain]
  cases hemp : gs.chain.isEmpty
  · simp only [Bool.false_eq_true, if_false]
    exact insert_pipeline_preserves gs.spacing_length gs.total_length _ gs.chain m.id
      m.color hfc hfi
  · simp only [if_true]
    exact ⟨⟨some m.id, 0, some m.color⟩, List.mem_singleton.mpr rfl, rfl, rfl⟩

theorem C1_gap_adjacency_amended_witness :
    ∃ cm ∈ (insert_into_chain gapAheadGS gapAheadMarble 0).chain,
      cm.id = some gapAheadMarble.id ∧ cm.color = some gapAheadMarble.color :=
  C1_gap_adjacency_amended extId gapAheadGS gapAheadMarble 0
    gapAhead_find_eval
    rfl
    (by decide)
    (by decide)

theorem sortChain_sorted (l : List ChainMarble) :
    List.Pairwise (fun a b : ChainMarble => a.s ≤ b.s) (sortChain l) := by
  haveI : IsTotal ChainMarble (fun a b => a.s ≤ b.s) := ⟨fun a b => le_total a.s b.s⟩
  haveI : IsTrans ChainMarble (fun a b => a.s ≤ b.s) :=
    ⟨fun a b c hab hbc => le_trans hab hbc⟩
  exact List.sorted_insertionSort (fun a b => a.s ≤ b.s) l

theorem collisionLoop_no_collision (ext : Fext) (gs : GameState)
    (h : ∀ m ∈ gs.marbles, find_collision_index ext gs m = none) :
    ∀ f i, collisionLoop ext f gs i = gs := by
  intro f
  induction f with
  | zero => intro i; rfl
  | succ f ih =>
    intro i
    by_cases hi : i < gs.marbles.length
    · have hm : gs.marbles.getD i default ∈ gs.marbles := by
        rw [List.getD_eq_getElem _ _ hi]
        exact List.getElem_mem hi
      have hfind := h _ hm
      simp only [collisionLoop, if_pos hi, hfind]
      exact ih (i + 1)
    · simp only [collisionLoop, if_neg hi]

/-- Claim C2 (amended): on any tick during which no projectile is
captured by the chain (`find_collision_index` returns `None` for every
surviving projectile against the pre-collision state), the chain is in
nondecreasing `s` order when `update` returns — the explicit sort at the
end of step 5 guarantees it, and the collision loop does not run.  (When
a capture does occur, `insert_into_chain` can break the order before the
tick ends; see the counterexample.) -/
theorem C2_sorted_amended (ext : Fext) (gs : GameState) (dt : ℚ) (rng : Rng)
    (hnone : ∀ m ∈ (updatePre gs dt rng).1.marbles,
      find_collision_index ext (updatePre gs dt rng).1 m = none) :
    List.Pairwise (fun a b : ChainMarble => a.s ≤ b.s) (update ext gs dt rng).1.chain := by
  have hcl := collisionLoop_no_collision ext (updatePre gs dt rng).1 hnone
    ((updatePre gs dt rng).1.marbles.length + 1) 0
  show List.Pairwise (fun a b : ChainMarble => a.s ≤ b.s)
    (collisionLoop ext ((updatePre gs dt rng).1.marbles.length + 1)
      (updatePre gs dt rng).1 0).chain
  rw [hcl]
  exact sortChain_sorted _

theorem C2_sorted_amended_witness :
    List.Pairwise (fun a b : ChainMarble => a.s ≤ b.s)
      (update extId emptyGS 0 ⟨[], []⟩).1.chain :=
  C2_sorted_amended extId emptyGS 0 ⟨[], []⟩
    (fun m hm => absurd (show m ∈ ([] : List Marble) from hm) (List.not_mem_nil m))

/-! ## Pointwise description of the spacing equalizer (claim C3) -/

theorem setS_get? (chain : List ChainMarble) (i j : Nat) (v : ℚ) :
    (setS chain i v).get? j =
      if j = i then (chain.get? j).map (fun cm => { cm with s := v })
      else chain.get? j := by
  unfold setS
  rcases h : chain.get? i with _ | cm <;>
    rw [List.get?_eq_getElem?] at h
  · rcases eq_or_ne j i with rfl | hj
    · simp [List.get?_eq_getElem?, h]
    · simp [hj]
  · rcases eq_or_ne j i with rfl | hj
    · simp [List.get?_eq_getElem?, List.getElem?_set_self', h, Function.const]
    · simp [List.get?_eq_getElem?, List.getElem?_set_ne (Ne.symm hj), hj]

theorem foldl_setS_get?_not_mem (v : Nat × ℚ → ℚ) (ps : List (Nat × ℚ)) :
    ∀ (ch : List ChainMarble) (i : Nat), i ∉ ps.map Prod.fst →
      (ps.foldl (fun ch p => setS ch p.1 (v p)) ch).get? i = ch.get? i := by
  induction ps with
  | nil => intro ch i _; rfl
  | cons p ps ih =>
    intro ch i hi
    simp only [List.map_cons, List.mem_cons, not_or] at hi
    rw [List.foldl_cons, ih _ i hi.2, setS_get?, if_neg hi.1]

theorem foldl_setS_get?_nodup (v : Nat × ℚ → ℚ) (ps : List (Nat × ℚ)) :
    ∀ (ch : List ChainMarble) (j : Nat), j < ps.length → (ps.map Prod.fst).Nodup →
      (ps.foldl (fun ch p => setS ch p.1 (v p)) ch).get? (ps.getD j default).1 =
        (ch.get? (ps.getD j default).1).map
          (fun cm => { cm with s := v (ps.getD j default) }) := by
  induction ps with
  | nil => intro ch j hj _; exact absurd hj (Nat.not_lt_zero j)
  | cons p ps ih =>
    intro ch j hj hnd
    simp only [List.map_cons, List.nodup_cons] at hnd
    cases j with
    | zero =>
      simp only [List.getD_cons_zero]
      rw [List.foldl_cons, foldl_setS_get?_not_mem v ps _ p.1 hnd.1, setS_get?, if_pos rfl]
    | succ j =>
      simp only [List.getD_cons_succ]
      simp only [List.length_cons] at hj
      have hj' : j < ps.length := by omega
      rw [List.foldl_cons, ih _ j hj' hnd.2]
      have hmem : (ps.getD j default).1 ∈ ps.map Prod.fst := by
        rw [List.getD_eq_getElem _ _ hj']
        exact List.mem_map.mpr ⟨_, List.getElem_mem hj', rfl⟩
      have hne : (ps.getD j default).1 ≠ p.1 := fun h => hnd.1 (h ▸ hmem)
      rw [setS_get?, if_neg hne]

theorem setS_length (chain : List ChainMarble) (i : Nat) (v : ℚ) :
    (setS chain i v).length = chain.length := by
  unfold setS
  rcases h : chain.get? i with _ | cm
  · rfl
  · show (chain.set i { cm with s := v }).length = chain.length
    simp

theorem foldl_setS_length (v : Nat × ℚ → ℚ) (ps : List (Nat × ℚ)) :
    ∀ ch : List ChainMarble,
      (ps.foldl (fun ch p => setS ch p.1 (v p)) ch).length = ch.length := by
  induction ps with
  | nil => intro ch; rfl
  | cons p ps ih =>
    intro ch
    rw [List.foldl_cons, ih, setS_length]

/-- The fraction of the total length the equalizer writes at the `j`-th
member (in ascending-`s` order) of a segment of length `m`: the desired
arc length `L_head - (m - 1 - j) * spacing`, clamped at `0`, as a clamped
fraction of the total length `T`. -/
def segVal (T sp : ℚ) (chain : List ChainMarble) (seg : List Nat) (j : Nat) : ℚ :=
  let L_head := maxByLast (seg.map (fun i => (chain.getD i default).s)) * T
  let d := L_head - ((seg.length - 1 - j : ℕ) : ℚ) * sp
  if 0 < T then clampQ ((if d < 0 then 0 else d) / T) 0 1 else 0

theorem applySeg_get?_not_mem (T sp : ℚ) (chain : List ChainMarble) (seg : List Nat)
    (i : Nat) (hi : i ∉ seg) :
    (applySeg T sp chain seg).get? i = chain.get? i := by
  simp only [applySeg]
  cases hemp : (seg.map (fun k => (chain.getD k default).s)).isEmpty
  · simp only [Bool.false_eq_true, if_false]
    refine foldl_setS_get?_not_mem _ _ chain i ?_
    rw [List.map_fst_zip]
    · exact hi
    · simp only [List.length_reverse, List.length_map, List.length_range]
      exact le_refl _
  · simp only [if_true]

theorem applySeg_length (T sp : ℚ) (chain : List ChainMarble) (seg : List Nat) :
    (applySeg T sp chain seg).length = chain.length := by
  simp only [applySeg]
  cases hemp : (seg.map (fun k => (chain.getD k default).s)).isEmpty
  · simp only [Bool.false_eq_true, if_false]
    exact foldl_setS_length _ _ chain
  · simp only [if_true]

theorem applySeg_get?_mem (T sp : ℚ) (chain : List ChainMarble) (seg : List Nat)
    (hnd : seg.Nodup) (j : Nat) (hj : j < seg.length) :
    (applySeg T sp chain seg).get? (seg.getD j 0) =
      (chain.get? (seg.getD j 0)).map
        (fun cm => { cm with s := segVal T sp chain seg j }) := by
  have hne : (seg.map (fun k => (chain.getD k default).s)).isEmpty = false := by
    cases seg with
    | nil => exact absurd hj (Nat.not_lt_zero j)
    | cons a l => rfl
  simp only [applySeg, hne, Bool.false_eq_true, if_false]
  set L := maxByLast (List.map (fun k => (chain.getD k default).s) seg) * T with hL
  set desired := (((List.range seg.length).map (fun i : Nat => L - (i : ℚ) * sp)).map
      (fun d => if d < 0 then 0 else d)).reverse with hdes
  have hdlen : desired.length = seg.length := by
    rw [hdes, List.length_reverse, List.length_map, List.length_map, List.length_range]
  have hzlen : (seg.zip desired).length = seg.length := by
    rw [List.length_zip, hdlen, Nat.min_self]
  have hmapfst : (seg.zip desired).map Prod.fst = seg :=
    List.map_fst_zip _ _ (le_of_eq hdlen.symm)
  have hjz : j < (seg.zip desired).length := by omega
  have hjd : j < desired.length := by omega
  have hget : (seg.zip desired).getD j default = (seg.getD j 0, desired.getD j 0) := by
    rw [List.getD_eq_getElem _ _ hjz, List.getD_eq_getElem _ _ hj,
      List.getD_eq_getElem _ _ hjd]
    exact List.getElem_zip
  have hdj : desired.getD j 0 =
      if L - ((seg.length - 1 - j : ℕ) : ℚ) * sp < 0 then 0
      else L - ((seg.length - 1 - j : ℕ) : ℚ) * sp := by
    rw [hdes]
    have hjd2 : j < ((((List.range seg.length).map (fun i : Nat => L - (i : ℚ) * sp)).map
        (fun d => if d < 0 then 0 else d)).reverse).length := by
      simp only [List.length_reverse, List.length_map, List.length_range]
      omega
    rw [List.getD_eq_getElem _ _ hjd2, List.getElem_reverse]
    simp only [List.length_map, List.length_range, List.getElem_map, List.getElem_range]
  have hval : (if 0 < T then clampQ ((desired.getD j 0) / T) 0 1 else 0) =
      segVal T sp chain seg j := by
    simp only [segVal]
    rw [← hL, hdj]
  have hmain2 : (List.foldl
      (fun ch p => setS ch p.1 (if 0 < T then clampQ (p.2 / T) 0 1 else 0)) chain
      (seg.zip desired)).get? (seg.getD j 0) =
      (chain.get? (seg.getD j 0)).map
        (fun cm => { cm with s := if 0 < T then clampQ ((desired.getD j 0) / T) 0 1
          else 0 }) := by
    have h := foldl_setS_get?_nodup
      (fun p => if 0 < T then clampQ (p.2 / T) 0 1 else 0) (seg.zip desired) chain j hjz
      (by rw [hmapfst]; exact hnd)
    rw [hget] at h
    exact h
  rw [← hval]
  exact hmain2

theorem flatten_buildSegsAux (chain : List ChainMarble) :
    ∀ (l cur : List Nat),
      (buildSegsAux chain l cur).flatten =
        cur ++ l.filter (fun i => ((chain.getD i default).color).isSome) := by
  intro l
  induction l with
  | nil =>
    intro cur
    cases hc : cur.isEmpty
    · simp [buildSegsAux, hc]
    · simp [buildSegsAux, hc, List.isEmpty_iff.mp hc]
  | cons idx rest ih =>
    intro cur
    cases hcol : ((chain[idx]?.getD default).color).isSome
    · cases hc : cur.isEmpty
      · simp [buildSegsAux, hcol, hc, ih]
      · simp [buildSegsAux, hcol, hc, List.isEmpty_iff.mp hc, ih]
    · simp [buildSegsAux, hcol, ih]

theorem chainSegments_flatten (chain : List ChainMarble) :
    (chainSegments chain).flatten =
      (orderIndices chain).filter (fun i => ((chain.getD i default).color).isSome) := by
  rw [chainSegments, flatten_buildSegsAux]
  rfl

theorem orderIndices_perm (chain : List ChainMarble) :
    (orderIndices chain).Perm (List.range chain.length) :=
  List.perm_insertionSort _ _

theorem chainSegments_flatten_nodup (chain : List ChainMarble) :
    (chainSegments chain).flatten.Nodup := by
  rw [chainSegments_flatten]
  exact ((orderIndices_perm chain).nodup_iff.mpr (List.nodup_range _)).filter _

theorem chainSegments_mem_lt (chain : List ChainMarble) :
    ∀ seg ∈ chainSegments chain, ∀ i ∈ seg, i < chain.length := by
  intro seg hseg i hi
  have h1 : i ∈ (chainSegments chain).flatten := List.mem_flatten.mpr ⟨seg, hseg, hi⟩
  rw [chainSegments_flatten] at h1
  have h2 : i ∈ orderIndices chain := List.mem_of_mem_filter h1
  have h3 := (orderIndices_perm chain).mem_iff.mp h2
  exact List.mem_range.mp h3

theorem foldl_applySeg_spec (T sp : ℚ) :
    ∀ (segs : List (List Nat)) (base : List ChainMarble), (segs.flatten).Nodup →
      ((∀ i, i ∉ segs.flatten →
          (segs.foldl (applySeg T sp) base).get? i = base.get? i) ∧
       (∀ seg ∈ segs, ∀ j, j < seg.length →
          (segs.foldl (applySeg T sp) base).get? (seg.getD j 0) =
            (base.get? (seg.getD j 0)).map
              (fun cm => { cm with s := segVal T sp base seg j }))) := by
  intro segs
  induction segs with
  | nil =>
    intro base _
    exact ⟨fun i _ => rfl, fun seg hseg => absurd hseg (List.not_mem_nil seg)⟩
  | cons seg rest ih =>
    intro base hnd
    rw [List.flatten_cons, List.nodup_append] at hnd
    obtain ⟨hseg_nd, hrest_nd, hdisj⟩ := hnd
    have ihr := ih (applySeg T sp base seg) hrest_nd
    constructor
    · intro i hi
      simp only [List.flatten_cons, List.mem_append, not_or] at hi
      rw [List.foldl_cons, ihr.1 i hi.2, applySeg_get?_not_mem T sp base seg i hi.1]
    · intro seg2 hseg2 j hj
      rw [List.foldl_cons]
      rcases List.mem_cons.mp hseg2 with rfl | hmem
      · have hq : seg2.getD j 0 ∈ seg2 := by
          rw [List.getD_eq_getElem _ _ hj]
          exact List.getElem_mem hj
        have hq2 : seg2.getD j 0 ∉ rest.flatten := fun h => hdisj hq h
        rw [ihr.1 _ hq2, applySeg_get?_mem T sp base seg2 hseg_nd j hj]
      · have hsub : ∀ i ∈ seg2, i ∉ seg := by
          intro i hi hin
          exact hdisj hin (List.mem_flatten.mpr ⟨seg2, hmem, hi⟩)
        have h1 := ihr.2 seg2 hmem j hj
        have hq : seg2.getD j 0 ∈ seg2 := by
          rw [List.getD_eq_getElem _ _ hj]
          exact List.getElem_mem hj
        have hbase : (applySeg T sp base seg).get? (seg2.getD j 0) =
            base.get? (seg2.getD j 0) :=
          applySeg_get?_not_mem T sp base seg _ (hsub _ hq)
        have hsegval : segVal T sp (applySeg T sp base seg) seg2 j =
            segVal T sp base seg2 j := by
          simp only [segVal]
          have hmaps : seg2.map (fun i => ((applySeg T sp base seg).getD i default).s) =
              seg2.map (fun i => (base.getD i default).s) := by
            refine List.map_congr_left ?_
            intro i hi
            have h4 := applySeg_get?_not_mem T sp base seg i (hsub i hi)
            have h5 : (applySeg T sp base seg).getD i default = base.getD i default := by
              rw [List.getD_eq_getElem?_getD, List.getD_eq_getElem?_getD,
                ← List.get?_eq_getElem?, ← List.get?_eq_getElem?, h4]
            rw [h5]
          rw [hmaps]
        rw [h1, hbase, hsegval]
